import Mathlib

/-!
Verification of the core algorithms of the dhondt-back repository
(`app/services/diputados_service.py`): the D'Hondt seat apportioner
`dhondt_alloc`, the fuzzy-matching reconciler `assign_votes_to_candidates`,
and the two-level (pact / party) apportionment loop of
`DiputadosService.compute_dhondt` / `resumen_nacional`.

Modelling conventions:
* Python floats (vote totals, similarity ratios) are modelled as rationals ℚ.
* Python dicts are modelled as association lists in insertion order.
* Python `list.sort(key=..., reverse=True)` is a stable descending sort; it is
  modelled by `List.insertionSort` with the non-strict descending relation,
  which is exactly the stable descending sort.
* `difflib.SequenceMatcher(None, a, b).ratio()` is modelled concretely below
  (`smRatio`): total size of the recursively-found matching blocks, doubled,
  divided by the total length.  The autojunk heuristic of difflib (active only
  for strings of length ≥ 200) is not modelled; candidate names are short.
* `unicodedata.normalize("NFD", ...)` is modelled as the identity (exact for
  ASCII and for pre-decomposed input); the combining-mark stripping that
  follows it in the source is modelled faithfully.
-/

set_option maxHeartbeats 1000000

namespace DipSvc

/-- Combining diacritical marks U+0300 .. U+036F, the range removed by
`re.sub(r"[̀-ͯ]", "", s)` in `normalize` (diputados_service.py:76). -/
def isCombiningMark (c : Char) : Bool := 0x300 ≤ c.toNat && c.toNat ≤ 0x36F

/-- ASCII whitespace stripped by Python `str.strip()`. -/
def isSpaceChar (c : Char) : Bool :=
  c = ' ' || c = '\t' || c = '\n' || c = '\r' || c = '\x0b' || c = '\x0c'

/-- `normalize` (diputados_service.py:70-77): lower-case (`str.lower()`,
ASCII case mapping), strip surrounding whitespace (`str.strip()`), drop
combining marks (NFD decomposition modelled as the identity, exact for ASCII
and pre-decomposed input). -/
def normalize (s : String) : String :=
  String.mk (((((s.data.map Char.toLower).dropWhile isSpaceChar).reverse.dropWhile
    isSpaceChar).reverse).filter (fun c => !isCombiningMark c))

/-- Length of the longest common prefix of two character lists. -/
def commonPrefixLen : List Char → List Char → Nat
  | a :: as, b :: bs => if a = b then commonPrefixLen as bs + 1 else 0
  | _, _ => 0

/-- `SequenceMatcher.find_longest_match` with no junk: the longest matching
block `(i, j, k)` (`a[i:i+k] = b[j:j+k]`, `k` maximal), ties broken by the
smallest start in `a`, then the smallest start in `b`. -/
def longestBlock (a b : List Char) : Nat × Nat × Nat :=
  (List.range a.length).foldl (fun acc i =>
    (List.range b.length).foldl (fun acc j =>
      let k := commonPrefixLen (a.drop i) (b.drop j)
      if k > acc.2.2 then (i, j, k) else acc) acc) (0, 0, 0)

/-- Total size of all matching blocks (`SequenceMatcher.get_matching_blocks`),
fuel-based recursion: the longest block splits the problem into the parts
before and after it.  A fuel of `a.length + b.length + 1` always suffices. -/
def matchingSizeAux : Nat → List Char → List Char → Nat
  | 0, _, _ => 0
  | fuel + 1, a, b =>
    let t := longestBlock a b
    if t.2.2 = 0 then 0
    else
      matchingSizeAux fuel (a.take t.1) (b.take t.2.1) + t.2.2 +
        matchingSizeAux fuel (a.drop (t.1 + t.2.2)) (b.drop (t.2.1 + t.2.2))

/-- Total matched size of `SequenceMatcher(None, a, b)`. -/
def matchingSize (a b : List Char) : Nat :=
  matchingSizeAux (a.length + b.length + 1) a b

/-- `SequenceMatcher(None, a, b).ratio()`: `2 * M / T` where `M` is the total
matching-block size and `T` the total length (1 when both strings are empty). -/
def smRatio (a b : List Char) : ℚ :=
  if a.length + b.length = 0 then 1
  else 2 * (matchingSize a b : ℚ) / ((a.length : ℚ) + (b.length : ℚ))

/-- Python `round(x, 3)` (banker's rounding to three decimal places). -/
def roundHalfEven (q : ℚ) : ℤ :=
  if q - ⌊q⌋ < 1 / 2 then ⌊q⌋
  else if 1 / 2 < q - ⌊q⌋ then ⌊q⌋ + 1
  else if ⌊q⌋ % 2 = 0 then ⌊q⌋ else ⌊q⌋ + 1

/-- `round(best_ratio, 3)` at diputados_service.py:208. -/
def round3 (q : ℚ) : ℚ := (roundHalfEven (q * 1000) : ℚ) / 1000

/-- One candidate dict of `assign_votes_to_candidates`
(built in `get_emol_csv`, diputados_service.py:325-333). -/
structure CandRec where
  id : String
  name : String
  votes : ℚ
  party_id : String
  matched_from : Option String
  match_quality : ℚ
deriving DecidableEq

/-- One poll entry (`encuesta_lista` element): a name and a vote count. -/
structure Encuesta where
  nombre : String
  votos : ℚ
deriving DecidableEq

/-- The inner candidate scan of `assign_votes_to_candidates`
(diputados_service.py:195-199): running best index and best ratio, starting
from `(None, 0.0)`, updated on strictly larger ratios, so the first index
attaining the maximum wins.  It scans ALL candidates, matched or not. -/
def bestCandidateAux (target : String) : List String → Nat → Option Nat × ℚ → Option Nat × ℚ
  | [], _, acc => acc
  | nm :: rest, i, acc =>
    let r := smRatio target.data nm.data
    bestCandidateAux target rest (i + 1) (if r > acc.2 then (some i, r) else acc)

/-- Best match for one poll entry: `best_match`, `best_ratio` after the scan. -/
def bestCandidate (target : String) (names : List String) : Option Nat × ℚ :=
  bestCandidateAux target names 0 (none, 0)

/-- Loop state of `assign_votes_to_candidates`: the (mutated) candidate list
and the `matched_candidates` / `matched_encuestas` index sets. -/
structure MatchSt where
  cands : List CandRec
  matchedC : List Nat
  matchedE : List Nat
deriving DecidableEq

/-- The accepted-match mutation (diputados_service.py:206-208): set the vote
count, record the raw poll name and the ratio rounded to 3 decimals. -/
def applyMatch (enc : Encuesta) (r : ℚ) (c : CandRec) : CandRec :=
  { c with votes := enc.votos, matched_from := some enc.nombre, match_quality := round3 r }

/-- Replace the element at an index by `f` of it (out of range: unchanged). -/
def modifyIdx {α : Type} (f : α → α) : Nat → List α → List α
  | _, [] => []
  | 0, c :: cs => f c :: cs
  | n + 1, c :: cs => c :: modifyIdx f n cs

/-- The poll-entry loop of `assign_votes_to_candidates`
(diputados_service.py:189-211).  `names` is the list of normalized candidate
names computed once before the loop; `rawNames` the raw names (used only in
the duplicate error message; both are never mutated by the loop, so passing
them as parameters is faithful to the Python closure). -/
def assignLoop (θ : ℚ) (names rawNames : List String) :
    List (Nat × Encuesta) → MatchSt → Except String MatchSt
  | [], st => .ok st
  | (eIdx, enc) :: rest, st =>
    let best := bestCandidate (normalize enc.nombre) names
    match best.1 with
    | some i =>
      if θ ≤ best.2 then
        if i ∈ st.matchedC then
          .error ("Candidato " ++ rawNames.getD i "" ++ " duplicado")
        else
          assignLoop θ names rawNames rest
            ⟨modifyIdx (applyMatch enc best.2) i st.cands, i :: st.matchedC, eIdx :: st.matchedE⟩
      else assignLoop θ names rawNames rest st
    | none => assignLoop θ names rawNames rest st

/-- The early-exit reset when the poll list is empty
(diputados_service.py:178-183). -/
def clearCand (c : CandRec) : CandRec :=
  { c with votes := 0, matched_from := none, match_quality := 0 }

/-- The post-loop reset of one unmatched candidate
(diputados_service.py:214-218): votes coerced (unchanged as a rational),
provenance cleared. -/
def unmatchedReset (c : CandRec) : CandRec :=
  { c with votes := c.votes, matched_from := none, match_quality := 0 }

/-- The post-loop pass over all candidates: candidates whose index was never
matched are reset. -/
def postPass (cs : List CandRec) (matched : List Nat) : List CandRec :=
  cs.enum.map (fun p => if p.1 ∈ matched then p.2 else unmatchedReset p.2)

/-- `assign_votes_to_candidates` (diputados_service.py:162-225).  The returned
value is the candidate list; the unmatched-poll diagnostic is only printed in
the source and does not affect the result. -/
def assign_votes_to_candidates (cands : List CandRec) (encs : List Encuesta) (θ : ℚ) :
    Except String (List CandRec) :=
  if encs.isEmpty then .ok (cands.map clearCand)
  else
    match assignLoop θ (cands.map (fun c => normalize c.name)) (cands.map (fun c => c.name))
        encs.enum ⟨cands, [], []⟩ with
    | .error e => .error e
    | .ok st => .ok (postPass st.cands st.matchedC)

/-- Application of one recorded match decision `(index, entry, ratio)`. -/
def applyUpd (cs : List CandRec) (u : Nat × Encuesta × ℚ) : List CandRec :=
  modifyIdx (applyMatch u.2.1 u.2.2) u.1 cs

/-- The control part of `assignLoop`, separated from the candidate list: the
loop never reads the candidate list (it only writes it), so its branching and
its matched sets are a function of the names, the threshold and the entries
alone.  Returns the list of match decisions in processing order. -/
def loopDecisions (θ : ℚ) (names rawNames : List String) :
    List (Nat × Encuesta) → List Nat → List Nat →
    Except String (List (Nat × Encuesta × ℚ) × List Nat × List Nat)
  | [], mC, mE => .ok ([], mC, mE)
  | (eIdx, enc) :: rest, mC, mE =>
    let best := bestCandidate (normalize enc.nombre) names
    match best.1 with
    | some i =>
      if θ ≤ best.2 then
        if i ∈ mC then .error ("Candidato " ++ rawNames.getD i "" ++ " duplicado")
        else
          (loopDecisions θ names rawNames rest (i :: mC) (eIdx :: mE)).map
            (fun r => ((i, enc, best.2) :: r.1, r.2))
      else loopDecisions θ names rawNames rest mC mE
    | none => loopDecisions θ names rawNames rest mC mE

/-- Divisors `range(1, num_escanos + 1)` of `dhondt_alloc`
(diputados_service.py:111); empty when the seat count is not positive. -/
def divisores (s : ℤ) : List ℕ := (List.range s.toNat).map (fun k => k + 1)

/-- The quotient pool of `dhondt_alloc` (diputados_service.py:108-113): one
entry `(votes / d, entity)` per entity and divisor, entities in the input
dict's insertion order, divisors ascending. -/
def cocientes (vs : List (String × ℚ)) (s : ℤ) : List (ℚ × String) :=
  vs.flatMap (fun p => (divisores s).map (fun (d : ℕ) => (p.2 / (d : ℚ), p.1)))

/-- Non-strict descending comparison on the quotient value; sorting with it by
a stable sort models Python `cocientes.sort(reverse=True, key=lambda x: x[0])`
(diputados_service.py:116), which is stable and descends on the value. -/
def qge (x y : ℚ × String) : Prop := y.1 ≤ x.1

instance : DecidableRel qge := fun x y => inferInstanceAs (Decidable (y.1 ≤ x.1))

instance : IsTotal (ℚ × String) qge := ⟨fun a b => le_total b.1 a.1⟩

instance : IsTrans (ℚ × String) qge := ⟨fun _ _ _ h₁ h₂ => le_trans h₂ h₁⟩

/-- The sorted quotient pool (`insertionSort` with a non-strict relation is
exactly the stable descending sort that Python guarantees). -/
def sortedCocientes (vs : List (String × ℚ)) (s : ℤ) : List (ℚ × String) :=
  List.insertionSort qge (cocientes vs s)

/-- `ganadores = cocientes[:num_escanos]` (diputados_service.py:119). -/
def ganadores (vs : List (String × ℚ)) (s : ℤ) : List (ℚ × String) :=
  (sortedCocientes vs s).take s.toNat

/-- `asignacion[lista] += 1` on an association list: increment the value at
the first occurrence of the key (the key is always present when called from
`dhondt_alloc`; Python would raise KeyError otherwise). -/
def incKey : List (String × ℕ) → String → List (String × ℕ)
  | [], _ => []
  | (k, n) :: rest, key => if k = key then (k, n + 1) :: rest else (k, n) :: incKey rest key

/-- `dhondt_alloc` (diputados_service.py:97-126): build the quotient pool,
sort it descending (stably), take the first `num_escanos`, and count the
selected quotients per entity starting from an all-zero dict over exactly the
input entities. -/
def dhondt_alloc (vs : List (String × ℚ)) (s : ℤ) : List (String × ℕ) :=
  (ganadores vs s).foldl (fun acc w => incKey acc w.2) (vs.map (fun p => (p.1, (0 : ℕ))))

/-- Sum of the values of an association list (`sum(d.values())`). -/
def sumValues (l : List (String × ℕ)) : ℕ := (l.map Prod.snd).sum

/-- Dict lookup with default 0 (value at the first occurrence of the key). -/
def getD : List (String × ℕ) → String → ℕ
  | [], _ => 0
  | (k, n) :: rest, key => if k = key then n else getD rest key

/-- Lexicographic placement order on position-tagged quotients: descending on
the value, ties by ascending pool position.  A stable descending sort places
`x` before `y` exactly when `lexLe x y`. -/
def lexLe (x y : ℕ × ℚ × String) : Prop := y.2.1 < x.2.1 ∨ (x.2.1 = y.2.1 ∧ x.1 ≤ y.1)

/-- Strict version of `lexLe`. -/
def lexLt (x y : ℕ × ℚ × String) : Prop := y.2.1 < x.2.1 ∨ (x.2.1 = y.2.1 ∧ x.1 < y.1)

instance : DecidableRel lexLe := fun x y =>
  inferInstanceAs (Decidable (y.2.1 < x.2.1 ∨ (x.2.1 = y.2.1 ∧ x.1 ≤ y.1)))

instance : DecidableRel lexLt := fun x y =>
  inferInstanceAs (Decidable (y.2.1 < x.2.1 ∨ (x.2.1 = y.2.1 ∧ x.1 < y.1)))

instance : IsTotal (ℕ × ℚ × String) lexLe :=
  ⟨fun a b => by
    rcases lt_trichotomy a.2.1 b.2.1 with h | h | h
    · exact Or.inr (Or.inl h)
    · rcases le_total a.1 b.1 with h' | h'
      · exact Or.inl (Or.inr ⟨h, h'⟩)
      · exact Or.inr (Or.inr ⟨h.symm, h'⟩)
    · exact Or.inl (Or.inl h)⟩

instance : IsTrans (ℕ × ℚ × String) lexLe :=
  ⟨fun a b c h₁ h₂ => by
    rcases h₁ with h₁ | ⟨h₁, h₁'⟩ <;> rcases h₂ with h₂ | ⟨h₂, h₂'⟩
    · exact Or.inl (lt_trans h₂ h₁)
    · exact Or.inl (h₂ ▸ h₁)
    · exact Or.inl (h₁ ▸ h₂)
    · exact Or.inr ⟨h₁.trans h₂, le_trans h₁' h₂'⟩⟩

/-- Position of the first occurrence of an element in a list (the rank of a
quotient in the sorted pool). -/
def idxOf {α : Type} [DecidableEq α] (x : α) : List α → ℕ
  | [] => 0
  | c :: t => if c = x then 0 else idxOf x t + 1

/-- One party row of `compute_dhondt` / `resumen_nacional`: id, owning pact
(optional), aggregated votes. -/
structure PartyR where
  id : String
  pact_id : Option String
  votes : ℚ
deriving DecidableEq

/-- `sub_votes = {p.id: p.votes for p in sub_parties if p.votes > 0}` where
`sub_parties = [p for p in parties if p.pact_id == pacto]`
(diputados_service.py:423-424 and 588-589). -/
def sub_votes (parties : List PartyR) (pacto : String) : List (String × ℚ) :=
  ((parties.filter (fun p => decide (p.pact_id = some pacto))).filter
      (fun p => decide (0 < p.votes))).map (fun p => (p.id, p.votes))

/-- The allocation content of the per-pact loop of `compute_dhondt`
(diputados_service.py:421-427) and `resumen_nacional` (587-592): for each
pact with its awarded seats, the positive-vote member parties are collected;
a pact with none is skipped (`continue`), otherwise `dhondt_alloc` distributes
the pact's awarded seats among them. -/
def pactSubAllocs (parties : List PartyR) (pactAlloc : List (String × ℕ)) :
    List (String × List (String × ℕ)) :=
  pactAlloc.filterMap (fun pa =>
    if (sub_votes parties pa.1).isEmpty then none
    else some (pa.1, dhondt_alloc (sub_votes parties pa.1) (pa.2 : ℤ)))

/-! ## Basic lemmas on the apportioner -/

theorem incKey_map_fst (l : List (String × ℕ)) (key : String) :
    (incKey l key).map Prod.fst = l.map Prod.fst := by
  induction l with
  | nil => rfl
  | cons p rest ih =>
    obtain ⟨k, n⟩ := p
    by_cases h : k = key <;> simp [incKey, h, ih]

theorem sumValues_cons (p : String × ℕ) (l : List (String × ℕ)) :
    sumValues (p :: l) = p.2 + sumValues l := by
  simp [sumValues]

theorem sumValues_incKey (l : List (String × ℕ)) (key : String)
    (h : key ∈ l.map Prod.fst) :
    sumValues (incKey l key) = sumValues l + 1 := by
  induction l with
  | nil => simp at h
  | cons p rest ih =>
    obtain ⟨k, n⟩ := p
    by_cases hk : k = key
    · simp only [incKey, if_pos hk, sumValues_cons]
      omega
    · have hmem : key ∈ rest.map Prod.fst := by
        rcases List.mem_cons.mp h with h' | h'
        · exact absurd h'.symm hk
        · exact h'
      simp only [incKey, if_neg hk, sumValues_cons, ih hmem]
      omega

theorem sumValues_foldl_incKey (ws : List (ℚ × String)) :
    ∀ init : List (String × ℕ), (∀ w ∈ ws, w.2 ∈ init.map Prod.fst) →
      sumValues (ws.foldl (fun acc w => incKey acc w.2) init) = sumValues init + ws.length := by
  induction ws with
  | nil => intro init _; simp
  | cons w rest ih =>
    intro init hmem
    have h₁ : w.2 ∈ init.map Prod.fst := hmem w (List.mem_cons_self _ _)
    have h₂ : ∀ x ∈ rest, x.2 ∈ (incKey init w.2).map Prod.fst := by
      intro x hx
      rw [incKey_map_fst]
      exact hmem x (List.mem_cons_of_mem _ hx)
    simp only [List.foldl_cons]
    rw [ih _ h₂, sumValues_incKey _ _ h₁, List.length_cons]
    omega

theorem sumValues_init_zero (vs : List (String × ℚ)) :
    sumValues (vs.map (fun p => (p.1, (0 : ℕ)))) = 0 := by
  simp only [sumValues, List.map_map]
  exact List.sum_eq_zero (by
    intro x hx
    obtain ⟨p, -, hp⟩ := List.mem_map.mp hx
    exact hp.symm)

theorem divisores_length (s : ℤ) : (divisores s).length = s.toNat := by
  simp [divisores]

theorem cocientes_length (vs : List (String × ℚ)) (s : ℤ) :
    (cocientes vs s).length = vs.length * s.toNat := by
  induction vs with
  | nil => simp [cocientes]
  | cons p rest ih =>
    simp only [cocientes, List.flatMap_cons] at *
    simp only [List.length_append, List.length_map, divisores_length, ih, List.length_cons]
    ring

theorem mem_cocientes (vs : List (String × ℚ)) (s : ℤ) (x : ℚ × String)
    (hx : x ∈ cocientes vs s) :
    ∃ p ∈ vs, x.2 = p.1 ∧ ∃ d ∈ divisores s, x.1 = p.2 / (d : ℚ) := by
  induction vs with
  | nil => simp [cocientes] at hx
  | cons p rest ih =>
    simp only [cocientes, List.flatMap_cons, List.mem_append] at hx
    rcases hx with hx | hx
    · obtain ⟨d, hd, hdx⟩ := List.mem_map.mp hx
      exact ⟨p, List.mem_cons_self _ _, by rw [← hdx], d, hd, by rw [← hdx]⟩
    · obtain ⟨q, hq, h⟩ := ih hx
      exact ⟨q, List.mem_cons_of_mem _ hq, h⟩

theorem mem_cocientes_keys (vs : List (String × ℚ)) (s : ℤ) (x : ℚ × String)
    (hx : x ∈ cocientes vs s) : x.2 ∈ vs.map Prod.fst := by
  obtain ⟨p, hp, hfst, -⟩ := mem_cocientes vs s x hx
  exact hfst ▸ List.mem_map_of_mem Prod.fst hp

theorem sortedCocientes_perm (vs : List (String × ℚ)) (s : ℤ) :
    (sortedCocientes vs s).Perm (cocientes vs s) :=
  List.perm_insertionSort qge (cocientes vs s)

theorem mem_ganadores_keys (vs : List (String × ℚ)) (s : ℤ) (x : ℚ × String)
    (hx : x ∈ ganadores vs s) : x.2 ∈ vs.map Prod.fst := by
  have hx' : x ∈ sortedCocientes vs s :=
    List.Sublist.mem hx (List.take_sublist _ _)
  exact mem_cocientes_keys vs s x ((sortedCocientes_perm vs s).mem_iff.mp hx')

theorem ganadores_length (vs : List (String × ℚ)) (s : ℤ) (hvs : vs ≠ []) :
    (ganadores vs s).length = s.toNat := by
  have hlen : (sortedCocientes vs s).length = vs.length * s.toNat := by
    rw [(sortedCocientes_perm vs s).length_eq, cocientes_length]
  have hge : s.toNat ≤ vs.length * s.toNat := by
    have : 1 ≤ vs.length := List.length_pos.mpr hvs
    calc s.toNat = 1 * s.toNat := (one_mul _).symm
    _ ≤ vs.length * s.toNat := Nat.mul_le_mul_right _ this
  rw [ganadores, List.length_take, hlen]
  exact min_eq_left hge

/-- C1: for every input mapping (non-negative votes) and non-negative seat
count, the values of `dhondt_alloc` sum to the seat count whenever some
entity has strictly positive votes or the seat count is 0. -/
theorem dhondt_alloc_sum_eq_seats (vs : List (String × ℚ)) (s : ℤ)
    (hs : 0 ≤ s) (hnn : ∀ p ∈ vs, 0 ≤ p.2)
    (hpos : (∃ p ∈ vs, 0 < p.2) ∨ s = 0) :
    (sumValues (dhondt_alloc vs s) : ℤ) = s := by
  have hkeys : ∀ w ∈ ganadores vs s, w.2 ∈ (vs.map (fun p => (p.1, (0 : ℕ)))).map Prod.fst := by
    intro w hw
    have := mem_ganadores_keys vs s w hw
    simpa [List.map_map] using this
  have hsum := sumValues_foldl_incKey (ganadores vs s) _ hkeys
  rw [dhondt_alloc, hsum, sumValues_init_zero]
  rcases hpos with ⟨p, hp, -⟩ | rfl
  · have hvs : vs ≠ [] := by
      intro h
      rw [h] at hp
      exact absurd hp (List.not_mem_nil p)
    rw [ganadores_length vs s hvs]
    simpa using Int.toNat_of_nonneg hs
  · simp [ganadores]

/-- Witness for C1 at a concrete input. -/
theorem dhondt_alloc_sum_eq_seats_witness :
    (sumValues (dhondt_alloc [("A", (1 : ℚ))] 1) : ℤ) = 1 :=
  dhondt_alloc_sum_eq_seats [("A", (1 : ℚ))] 1 (by decide) (by decide)
    (Or.inl ⟨("A", (1 : ℚ)), by decide, by norm_num⟩)

/-- C2 counterexample: `dhondt_alloc` performs no input validation.  On a
negative vote total it returns a normal allocation (here both seats), and on
a negative seat count it returns the all-zero allocation — no error of any
kind is raised, contradicting the claim that an InvalidInputError is raised. -/
theorem dhondt_alloc_no_validation_cex :
    dhondt_alloc [("A", (-1 : ℚ))] 2 = [("A", 2)] ∧
      dhondt_alloc [("A", (5 : ℚ))] (-3) = [("A", 0)] := by
  constructor
  · norm_num [dhondt_alloc, ganadores, sortedCocientes, cocientes, divisores,
      List.range_succ, List.insertionSort, List.orderedInsert, qge]
    rfl
  · rfl

/-- C2 amended: `dhondt_alloc` never fails; on a negative seat count it
returns every input entity mapped to zero seats (the divisor range is empty),
and negative votes flow through the ordinary quotient procedure. -/
theorem dhondt_alloc_neg_seats_all_zero (vs : List (String × ℚ)) (s : ℤ) (hs : s < 0) :
    dhondt_alloc vs s = vs.map (fun p => (p.1, (0 : ℕ))) := by
  have h0 : s.toNat = 0 := Int.toNat_of_nonpos (le_of_lt hs)
  simp [dhondt_alloc, ganadores, h0]

/-- Witness for the amended C2. -/
theorem dhondt_alloc_neg_seats_all_zero_witness :
    dhondt_alloc [("A", (5 : ℚ)), ("B", (3 : ℚ))] (-3) =
      [("A", 0), ("B", 0)] := by
  rw [dhondt_alloc_neg_seats_all_zero _ _ (by decide)]
  rfl

theorem foldl_incKey_map_fst (ws : List (ℚ × String)) :
    ∀ init : List (String × ℕ),
      (ws.foldl (fun acc w => incKey acc w.2) init).map Prod.fst = init.map Prod.fst := by
  induction ws with
  | nil => intro init; rfl
  | cons w rest ih =>
    intro init
    simp only [List.foldl_cons]
    rw [ih, incKey_map_fst]

theorem dhondt_alloc_map_fst (vs : List (String × ℚ)) (s : ℤ) :
    (dhondt_alloc vs s).map Prod.fst = vs.map Prod.fst := by
  rw [dhondt_alloc, foldl_incKey_map_fst]
  simp [List.map_map]

theorem value_le_sumValues (l : List (String × ℕ)) (p : String × ℕ) (hp : p ∈ l) :
    p.2 ≤ sumValues l := by
  induction l with
  | nil => simp at hp
  | cons q rest ih =>
    rw [sumValues_cons]
    rcases List.mem_cons.mp hp with rfl | h
    · omega
    · have := ih h
      omega

/-- C10: the allocation returned by `dhondt_alloc` has exactly the input
entities as keys (in input order, so zero-seat entities included and nothing
else), and every allocated value is at most the requested seat count. -/
theorem dhondt_alloc_keys_and_bounds (vs : List (String × ℚ)) (s : ℤ) (hs : 0 ≤ s) :
    (dhondt_alloc vs s).map Prod.fst = vs.map Prod.fst ∧
      ∀ p ∈ dhondt_alloc vs s, (p.2 : ℤ) ≤ s := by
  refine ⟨dhondt_alloc_map_fst vs s, ?_⟩
  intro p hp
  have hkeys : ∀ w ∈ ganadores vs s, w.2 ∈ (vs.map (fun q => (q.1, (0 : ℕ)))).map Prod.fst := by
    intro w hw
    simpa [List.map_map] using mem_ganadores_keys vs s w hw
  have hsum : sumValues (dhondt_alloc vs s) = (ganadores vs s).length := by
    rw [dhondt_alloc, sumValues_foldl_incKey _ _ hkeys, sumValues_init_zero]
    omega
  have hlen : (ganadores vs s).length ≤ s.toNat := by
    rw [ganadores, List.length_take]
    exact min_le_left _ _
  have hval : p.2 ≤ s.toNat := by
    have := value_le_sumValues (dhondt_alloc vs s) p hp
    omega
  calc (p.2 : ℤ) ≤ (s.toNat : ℤ) := Int.ofNat_le.mpr hval
  _ = s := Int.toNat_of_nonneg hs

/-- Witness for C10. -/
theorem dhondt_alloc_keys_and_bounds_witness :
    (dhondt_alloc [("A", (3 : ℚ)), ("B", (0 : ℚ))] 2).map Prod.fst = ["A", "B"] ∧
      ∀ p ∈ dhondt_alloc [("A", (3 : ℚ)), ("B", (0 : ℚ))] 2, (p.2 : ℤ) ≤ 2 :=
  dhondt_alloc_keys_and_bounds [("A", (3 : ℚ)), ("B", (0 : ℚ))] 2 (by decide)

/-! ## Zero-vote entities (C8) -/

theorem getD_incKey_ne (l : List (String × ℕ)) (key e : String) (h : key ≠ e) :
    getD (incKey l key) e = getD l e := by
  induction l with
  | nil => rfl
  | cons p rest ih =>
    obtain ⟨k, n⟩ := p
    by_cases hk : k = key
    · subst hk
      simp [incKey, getD, h]
    · by_cases he : k = e
      · simp [incKey, hk, getD, he, Ne.symm h]
      · simp [incKey, hk, getD, he, ih]

theorem getD_incKey_self (l : List (String × ℕ)) (key : String)
    (h : key ∈ l.map Prod.fst) :
    getD (incKey l key) key = getD l key + 1 := by
  induction l with
  | nil => simp at h
  | cons p rest ih =>
    obtain ⟨k, n⟩ := p
    by_cases hk : k = key
    · simp [incKey, hk, getD]
    · have h' : key ∈ rest.map Prod.fst := by
        rcases List.mem_cons.mp h with h' | h'
        · exact absurd h'.symm hk
        · exact h'
      simp [incKey, hk, getD, ih h']

theorem getD_foldl_incKey (ws : List (ℚ × String)) :
    ∀ init : List (String × ℕ), ∀ e : String, e ∈ init.map Prod.fst →
      getD (ws.foldl (fun acc w => incKey acc w.2) init) e =
        getD init e + ws.countP (fun w => decide (w.2 = e)) := by
  induction ws with
  | nil => intro init e _; simp
  | cons w rest ih =>
    intro init e he
    simp only [List.foldl_cons]
    have he' : e ∈ (incKey init w.2).map Prod.fst := by rw [incKey_map_fst]; exact he
    rw [ih _ _ he', List.countP_cons]
    by_cases hw : w.2 = e
    · rw [hw, getD_incKey_self _ _ he]
      simp
      omega
    · rw [getD_incKey_ne _ _ _ hw]
      simp [hw]

theorem getD_init_zero (vs : List (String × ℚ)) (e : String) :
    getD (vs.map (fun p => (p.1, (0 : ℕ)))) e = 0 := by
  induction vs with
  | nil => rfl
  | cons p rest ih => by_cases h : p.1 = e <;> simp [getD, h, ih]

/-- In a descending-sorted pool with at least `n` strictly positive values,
the first `n` values are all strictly positive. -/
theorem sorted_take_pos (l : List (ℚ × String)) (hs : List.Sorted qge l) :
    ∀ n : ℕ, n ≤ l.countP (fun x => decide (0 < x.1)) →
      ∀ x ∈ l.take n, 0 < x.1 := by
  induction l with
  | nil => intro n _ x hx; simp at hx
  | cons a tl ih =>
    intro n hn x hx
    obtain ⟨ha, htl⟩ := List.sorted_cons.mp hs
    cases n with
    | zero => simp at hx
    | succ m =>
      have hapos : 0 < a.1 := by
        by_contra hneg
        push_neg at hneg
        have hz : tl.countP (fun x => decide (0 < x.1)) = 0 := by
          rw [List.countP_eq_zero]
          intro y hy
          have hy' : y.1 ≤ a.1 := ha y hy
          simp only [decide_eq_true_eq]
          intro hc
          exact absurd (lt_of_lt_of_le hc hy') (not_lt.mpr hneg)
        rw [List.countP_cons] at hn
        have : ¬ (0 < a.1) := not_lt.mpr hneg
        simp [hz, this] at hn
      rw [List.take_succ_cons] at hx
      rcases List.mem_cons.mp hx with rfl | hx'
      · exact hapos
      · have hcnt : m ≤ tl.countP (fun x => decide (0 < x.1)) := by
          rw [List.countP_cons] at hn
          simp [hapos] at hn
          omega
        exact ih htl m hcnt x hx'

theorem divisores_pos (s : ℤ) (d : ℕ) (hd : d ∈ divisores s) : 0 < d := by
  simp only [divisores, List.mem_map] at hd
  obtain ⟨k, -, rfl⟩ := hd
  omega

theorem countP_pos_cocientes (vs : List (String × ℚ)) (s : ℤ) (p : String × ℚ)
    (hp : p ∈ vs) (hpos : 0 < p.2) :
    s.toNat ≤ (cocientes vs s).countP (fun x => decide (0 < x.1)) := by
  obtain ⟨l₁, l₂, rfl⟩ := List.append_of_mem hp
  rw [cocientes, List.flatMap_append, List.flatMap_cons, List.countP_append,
    List.countP_append]
  have hblock : ((divisores s).map (fun (d : ℕ) => (p.2 / (d : ℚ), p.1))).countP
      (fun x => decide (0 < x.1)) = s.toNat := by
    have hall : ∀ x ∈ (divisores s).map (fun (d : ℕ) => (p.2 / (d : ℚ), p.1)),
        (fun x => decide (0 < x.1)) x = true := by
      intro x hx
      obtain ⟨d, hd, rfl⟩ := List.mem_map.mp hx
      have hdpos : (0 : ℚ) < (d : ℚ) := by
        exact_mod_cast divisores_pos s d hd
      simp only [decide_eq_true_eq]
      exact div_pos hpos hdpos
    rw [List.countP_eq_length.mpr hall, List.length_map, divisores_length]
  omega

/-- Keys of an association list with `Nodup` keys determine the entries. -/
theorem nodup_keys_eq (vs : List (String × ℚ)) (hnd : (vs.map Prod.fst).Nodup) :
    ∀ p q : String × ℚ, p ∈ vs → q ∈ vs → p.1 = q.1 → p = q := by
  induction vs with
  | nil => intro p q hp; simp at hp
  | cons a rest ih =>
    intro p q hp hq hpq
    rw [List.map_cons, List.nodup_cons] at hnd
    obtain ⟨hna, hnd'⟩ := hnd
    rcases List.mem_cons.mp hp with rfl | hp' <;> rcases List.mem_cons.mp hq with rfl | hq'
    · rfl
    · exact absurd (List.mem_map_of_mem Prod.fst hq') (hpq ▸ hna)
    · exact absurd (hpq ▸ List.mem_map_of_mem Prod.fst hp') hna
    · exact ih hnd' p q hp' hq' hpq

/-- C8 counterexample: an entity with zero votes CAN receive seats when no
entity has positive votes — here the single all-zero entity receives the
seat, as documented in spec section 4.2 but contradicting the unconditional
claim. -/
theorem dhondt_alloc_zero_votes_gets_seat_cex :
    getD (dhondt_alloc [("A", (0 : ℚ))] 1) "A" = 1 := by
  norm_num [dhondt_alloc, ganadores, sortedCocientes, cocientes, divisores,
    List.range_succ, List.insertionSort, List.orderedInsert, qge]
  rfl

/-- C8 amended: every zero-vote entity receives zero seats PROVIDED at least
one entity has strictly positive votes (then all selected quotients are
strictly positive, and all of a zero-vote entity's quotients are zero). -/
theorem dhondt_alloc_zero_votes_zero_seats (vs : List (String × ℚ)) (s : ℤ) (e : String)
    (hnd : (vs.map Prod.fst).Nodup) (hmem : (e, (0 : ℚ)) ∈ vs)
    (hpos : ∃ p ∈ vs, 0 < p.2) :
    getD (dhondt_alloc vs s) e = 0 := by
  have he : e ∈ (vs.map (fun p => (p.1, (0 : ℕ)))).map Prod.fst := by
    rw [List.map_map]
    exact List.mem_map.mpr ⟨(e, 0), hmem, rfl⟩
  rw [dhondt_alloc, getD_foldl_incKey _ _ _ he, getD_init_zero]
  have hcnt : (ganadores vs s).countP (fun w => decide (w.2 = e)) = 0 := by
    rw [List.countP_eq_zero]
    intro w hw
    simp only [decide_eq_true_eq]
    intro hwe
    obtain ⟨q, hq, hqpos⟩ := hpos
    have hsort : List.Sorted qge (sortedCocientes vs s) :=
      List.sorted_insertionSort qge _
    have hcount : s.toNat ≤ (sortedCocientes vs s).countP (fun x => decide (0 < x.1)) := by
      rw [(sortedCocientes_perm vs s).countP_eq]
      exact countP_pos_cocientes vs s q hq hqpos
    have hwpos : 0 < w.1 := sorted_take_pos _ hsort s.toNat hcount w hw
    have hwc : w ∈ cocientes vs s :=
      (sortedCocientes_perm vs s).mem_iff.mp (List.Sublist.mem hw (List.take_sublist _ _))
    obtain ⟨p, hpv, hfst, d, hd, hval⟩ := mem_cocientes vs s w hwc
    have hpe : p = (e, 0) := nodup_keys_eq vs hnd p (e, 0) hpv hmem (by rw [← hfst, hwe])
    rw [hpe] at hval
    simp only [zero_div] at hval
    rw [hval] at hwpos
    exact lt_irrefl 0 hwpos
  omega

/-- Witness for the amended C8. -/
theorem dhondt_alloc_zero_votes_zero_seats_witness :
    getD (dhondt_alloc [("A", (0 : ℚ)), ("B", (5 : ℚ))] 3) "A" = 0 :=
  dhondt_alloc_zero_votes_zero_seats [("A", (0 : ℚ)), ("B", (5 : ℚ))] 3 "A"
    (by decide) (by decide) ⟨("B", (5 : ℚ)), by decide, by norm_num⟩

/-! ## The two-level apportionment (C3) -/

theorem mem_sub_votes (parties : List PartyR) (pacto : String) (q : String × ℚ)
    (hq : q ∈ sub_votes parties pacto) :
    ∃ p ∈ parties, p.pact_id = some pacto ∧ 0 < p.votes ∧ q = (p.id, p.votes) := by
  simp only [sub_votes, List.mem_map, List.mem_filter, decide_eq_true_eq] at hq
  obtain ⟨p, ⟨⟨hp, hpid⟩, hpv⟩, rfl⟩ := hq
  exact ⟨p, hp, hpid, hpv, rfl⟩

theorem sub_votes_mem (parties : List PartyR) (pacto : String) (p : PartyR)
    (hp : p ∈ parties) (hpid : p.pact_id = some pacto) (hpv : 0 < p.votes) :
    (p.id, p.votes) ∈ sub_votes parties pacto := by
  simp only [sub_votes, List.mem_map, List.mem_filter, decide_eq_true_eq]
  exact ⟨p, ⟨⟨hp, hpid⟩, hpv⟩, rfl⟩

/-- C3: within the per-pact loop, a pact having at least one member party with
strictly positive votes gets a party-level allocation over exactly its
positive-vote parties whose values sum to the pact's awarded seat count; a
pact without such a party is skipped and appears in no sub-allocation. -/
theorem pact_sub_allocation (parties : List PartyR) (pactAlloc : List (String × ℕ))
    (pacto : String) (n : ℕ) (hmem : (pacto, n) ∈ pactAlloc) :
    ((∃ p ∈ parties, p.pact_id = some pacto ∧ 0 < p.votes) →
       sumValues (dhondt_alloc (sub_votes parties pacto) (n : ℤ)) = n ∧
       (∀ q ∈ sub_votes parties pacto, 0 < q.2) ∧
       (pacto, dhondt_alloc (sub_votes parties pacto) (n : ℤ)) ∈
         pactSubAllocs parties pactAlloc) ∧
    ((¬ ∃ p ∈ parties, p.pact_id = some pacto ∧ 0 < p.votes) →
       sub_votes parties pacto = [] ∧
       ∀ a, (pacto, a) ∉ pactSubAllocs parties pactAlloc) := by
  constructor
  · intro hex
    obtain ⟨p, hp, hpid, hpv⟩ := hex
    have hq : (p.id, p.votes) ∈ sub_votes parties pacto := sub_votes_mem _ _ p hp hpid hpv
    have hposall : ∀ q ∈ sub_votes parties pacto, 0 < q.2 := by
      intro q hqm
      obtain ⟨r, -, -, hrv, rfl⟩ := mem_sub_votes _ _ q hqm
      exact hrv
    have hne : sub_votes parties pacto ≠ [] := by
      intro hnil
      rw [hnil] at hq
      exact List.not_mem_nil _ hq
    refine ⟨?_, hposall, ?_⟩
    · have hsum := dhondt_alloc_sum_eq_seats (sub_votes parties pacto) (n : ℤ)
        (by exact_mod_cast Int.ofNat_nonneg n)
        (fun q hqm => le_of_lt (hposall q hqm))
        (Or.inl ⟨(p.id, p.votes), hq, hpv⟩)
      exact_mod_cast hsum
    · refine List.mem_filterMap.mpr ⟨(pacto, n), hmem, ?_⟩
      rw [if_neg]
      intro hemp
      exact hne (List.isEmpty_iff.mp hemp)
  · intro hnex
    have hempty : sub_votes parties pacto = [] := by
      rw [List.eq_nil_iff_forall_not_mem]
      intro q hqm
      obtain ⟨r, hr, hrid, hrv, -⟩ := mem_sub_votes _ _ q hqm
      exact hnex ⟨r, hr, hrid, hrv⟩
    refine ⟨hempty, ?_⟩
    intro a ha
    obtain ⟨pa, hpa, hif⟩ := List.mem_filterMap.mp ha
    by_cases hc : (sub_votes parties pa.1).isEmpty
    · rw [if_pos hc] at hif
      exact Option.noConfusion hif
    · rw [if_neg hc] at hif
      have hfst : pa.1 = pacto := congrArg Prod.fst (Option.some.inj hif)
      rw [hfst, hempty] at hc
      exact hc rfl

/-- Witness for C3 at a concrete two-party pact. -/
theorem pact_sub_allocation_witness :
    sumValues (dhondt_alloc
        (sub_votes [⟨"P1", some "X", (10 : ℚ)⟩, ⟨"P2", some "X", (5 : ℚ)⟩] "X")
        ((2 : ℕ) : ℤ)) = 2 ∧
      (∀ q ∈ sub_votes [⟨"P1", some "X", (10 : ℚ)⟩, ⟨"P2", some "X", (5 : ℚ)⟩] "X",
        0 < q.2) ∧
      ("X", dhondt_alloc
          (sub_votes [⟨"P1", some "X", (10 : ℚ)⟩, ⟨"P2", some "X", (5 : ℚ)⟩] "X")
          ((2 : ℕ) : ℤ)) ∈
        pactSubAllocs [⟨"P1", some "X", (10 : ℚ)⟩, ⟨"P2", some "X", (5 : ℚ)⟩] [("X", 2)] :=
  (pact_sub_allocation [⟨"P1", some "X", (10 : ℚ)⟩, ⟨"P2", some "X", (5 : ℚ)⟩]
      [("X", 2)] "X" 2 (List.mem_cons_self _ _)).1
    ⟨⟨"P1", some "X", (10 : ℚ)⟩, List.mem_cons_self _ _, rfl, by norm_num⟩

/-! ## Tie-break stability of the descending sort (C6) -/

theorem filter_val_orderedInsert (v : ℚ) (a : ℚ × String) (m : List (ℚ × String)) :
    (List.orderedInsert qge a m).filter (fun x => decide (x.1 = v)) =
      if a.1 = v then a :: m.filter (fun x => decide (x.1 = v))
      else m.filter (fun x => decide (x.1 = v)) := by
  induction m with
  | nil =>
    by_cases h : a.1 = v <;> simp [List.orderedInsert, List.filter_cons, h]
  | cons b m' ih =>
    rw [List.orderedInsert]
    by_cases hq : qge a b
    · rw [if_pos hq]
      by_cases h : a.1 = v <;> simp [List.filter_cons, h]
    · rw [if_neg hq]
      have hlt : a.1 < b.1 := not_le.mp (by simpa [qge] using hq)
      rw [List.filter_cons, ih]
      by_cases hb : b.1 = v
      · have ha : ¬ a.1 = v := by
          rw [← hb]
          exact ne_of_lt hlt
        simp [List.filter_cons, hb, ha]
      · by_cases h : a.1 = v <;> simp [List.filter_cons, hb, h]

theorem filter_val_insertionSort (v : ℚ) (l : List (ℚ × String)) :
    (List.insertionSort qge l).filter (fun x => decide (x.1 = v)) =
      l.filter (fun x => decide (x.1 = v)) := by
  induction l with
  | nil => rfl
  | cons a l' ih =>
    rw [List.insertionSort, filter_val_orderedInsert, List.filter_cons]
    by_cases h : a.1 = v <;> simp [h, ih]

theorem idxOf_append_of_mem (x : ℚ × String) (P Q : List (ℚ × String)) (h : x ∈ P) :
    idxOf x (P ++ Q) = idxOf x P := by
  induction P with
  | nil => simp at h
  | cons c t ih =>
    by_cases hc : c = x
    · simp [idxOf, hc]
    · rcases List.mem_cons.mp h with h' | h'
      · exact absurd h'.symm hc
      · simp [idxOf, hc, ih h']

theorem idxOf_append_of_not_mem (x : ℚ × String) (P Q : List (ℚ × String)) (h : x ∉ P) :
    idxOf x (P ++ Q) = P.length + idxOf x Q := by
  induction P with
  | nil => simp [idxOf]
  | cons c t ih =>
    have hc : ¬ c = x := fun hh => h (List.mem_cons.mpr (Or.inl hh.symm))
    have ht : x ∉ t := fun hh => h (List.mem_cons_of_mem _ hh)
    simp only [List.cons_append, idxOf, if_neg hc, List.length_cons, List.append_eq]
    rw [ih ht]
    omega

theorem idxOf_lt_length (x : ℚ × String) (P : List (ℚ × String)) (h : x ∈ P) :
    idxOf x P < P.length := by
  induction P with
  | nil => simp at h
  | cons c t ih =>
    by_cases hc : c = x
    · simp [idxOf, hc]
    · rcases List.mem_cons.mp h with h' | h'
      · exact absurd h'.symm hc
      · simp only [idxOf, if_neg hc, List.length_cons]
        exact Nat.succ_lt_succ (ih h')

/-- The relative order of the first occurrences of two distinct elements is
read off the head of the list filtered to those two elements. -/
theorem rel_order_filter (x y : ℚ × String) (hxy : x ≠ y) :
    ∀ l : List (ℚ × String), x ∈ l → y ∈ l →
      (idxOf x l < idxOf y l ↔
        (l.filter (fun z => decide (z = x ∨ z = y))).head? = some x) := by
  intro l
  induction l with
  | nil => intro hx; simp at hx
  | cons c t ih =>
    intro hx hy
    by_cases hcx : c = x
    · subst hcx
      simp [idxOf, List.filter_cons, hxy]
    · by_cases hcy : c = y
      · subst hcy
        simp [idxOf, List.filter_cons, hcx, Ne.symm hxy]
      · have hxt : x ∈ t := by
          rcases List.mem_cons.mp hx with h | h
          · exact absurd h.symm hcx
          · exact h
        have hyt : y ∈ t := by
          rcases List.mem_cons.mp hy with h | h
          · exact absurd h.symm hcy
          · exact h
        simp only [idxOf, if_neg hcx, if_neg hcy, List.filter_cons]
        rw [if_neg (by simp [hcx, hcy])]
        constructor
        · intro h
          exact (ih hxt hyt).mp (by omega)
        · intro h
          have := (ih hxt hyt).mpr h
          omega

/-- C6: in the sorted quotient pool, whenever two pool quotients are
numerically equal, the one belonging to the entity that appears earlier in
the input mapping's insertion order is ranked first: the first occurrence of
`(v, a)` strictly precedes the first occurrence of `(v, b)` whenever entity
`a` precedes entity `b` in the input and both quotients are in the pool.
Hence the descending sort is stable with respect to pool construction order
and the allocation is a deterministic function of the ordered input. -/
theorem dhondt_sort_tiebreak (l₁ l₂ l₃ : List (String × ℚ)) (a b : String) (va vb v : ℚ)
    (s : ℤ)
    (hnd : ((l₁ ++ (a, va) :: l₂ ++ (b, vb) :: l₃).map Prod.fst).Nodup)
    (hma : (v, a) ∈ sortedCocientes (l₁ ++ (a, va) :: l₂ ++ (b, vb) :: l₃) s)
    (hmb : (v, b) ∈ sortedCocientes (l₁ ++ (a, va) :: l₂ ++ (b, vb) :: l₃) s) :
    idxOf (v, a) (sortedCocientes (l₁ ++ (a, va) :: l₂ ++ (b, vb) :: l₃) s) <
      idxOf (v, b) (sortedCocientes (l₁ ++ (a, va) :: l₂ ++ (b, vb) :: l₃) s) := by
  set vs := l₁ ++ (a, va) :: l₂ ++ (b, vb) :: l₃ with hvs
  -- Key disjointness facts from the nodup hypothesis.
  have hmapfst : vs.map Prod.fst =
      l₁.map Prod.fst ++ a :: (l₂.map Prod.fst ++ b :: l₃.map Prod.fst) := by
    simp [hvs]
  rw [hmapfst] at hnd
  have hnd₂ : (a :: (l₂.map Prod.fst ++ b :: l₃.map Prod.fst)).Nodup :=
    hnd.of_append_right
  have hna : a ∉ l₂.map Prod.fst ++ b :: l₃.map Prod.fst :=
    (List.nodup_cons.mp hnd₂).1
  have hab : a ≠ b := by
    intro h
    exact hna (h ▸ List.mem_append_right _ (List.mem_cons_self _ _))
  have hal₃ : a ∉ l₃.map Prod.fst := fun h =>
    hna (List.mem_append_right _ (List.mem_cons_of_mem _ h))
  have hbl₁ : b ∉ l₁.map Prod.fst := by
    intro h
    have hdisj := List.disjoint_of_nodup_append hnd
    exact hdisj h (List.mem_cons_of_mem _ (List.mem_append_right _ (List.mem_cons_self _ _)))
  have hbl₂ : b ∉ l₂.map Prod.fst := by
    intro h
    have hnd₃ : (l₂.map Prod.fst ++ b :: l₃.map Prod.fst).Nodup := (List.nodup_cons.mp hnd₂).2
    exact List.disjoint_of_nodup_append hnd₃ h (List.mem_cons_self _ _)
  -- Decompose the pool.
  have hpool : cocientes vs s =
      (cocientes l₁ s ++ ((divisores s).map (fun (d : ℕ) => (va / (d : ℚ), a)) ++
        cocientes l₂ s)) ++
      ((divisores s).map (fun (d : ℕ) => (vb / (d : ℚ), b)) ++ cocientes l₃ s) := by
    simp only [hvs, cocientes, List.flatMap_append, List.flatMap_cons]
  have hmaP : (v, a) ∈ cocientes vs s :=
    (sortedCocientes_perm vs s).mem_iff.mp hma
  have hmbP : (v, b) ∈ cocientes vs s :=
    (sortedCocientes_perm vs s).mem_iff.mp hmb
  have hmaPre : (v, a) ∈ cocientes l₁ s ++
      ((divisores s).map (fun (d : ℕ) => (va / (d : ℚ), a)) ++ cocientes l₂ s) := by
    have h0 := hmaP
    rw [hpool] at h0
    rcases List.mem_append.mp h0 with h | h
    · exact h
    · exfalso
      rcases List.mem_append.mp h with h' | h'
      · obtain ⟨d, -, hd⟩ := List.mem_map.mp h'
        have hba : b = a := congrArg Prod.snd hd
        exact hab hba.symm
      · exact hal₃ (by simpa using mem_cocientes_keys l₃ s _ h')
  have hmbPre : (v, b) ∉ cocientes l₁ s ++
      ((divisores s).map (fun (d : ℕ) => (va / (d : ℚ), a)) ++ cocientes l₂ s) := by
    intro h
    rcases List.mem_append.mp h with h' | h'
    · exact hbl₁ (by simpa using mem_cocientes_keys l₁ s _ h')
    · rcases List.mem_append.mp h' with h'' | h''
      · obtain ⟨d, -, hd⟩ := List.mem_map.mp h''
        have hba : a = b := congrArg Prod.snd hd
        exact hab hba
      · exact hbl₂ (by simpa using mem_cocientes_keys l₂ s _ h'')
  -- Relative order in the (unsorted) pool.
  have hidxP : idxOf (v, a) (cocientes vs s) < idxOf (v, b) (cocientes vs s) := by
    rw [hpool, idxOf_append_of_mem _ _ _ hmaPre, idxOf_append_of_not_mem _ _ _ hmbPre]
    have h1 := idxOf_lt_length _ _ hmaPre
    omega
  -- Transfer through the stable sort via the two-element filter.
  have hxy : ((v, a) : ℚ × String) ≠ (v, b) := by
    intro h
    exact hab (congrArg Prod.snd h)
  have hfilter : (sortedCocientes vs s).filter
      (fun z => decide (z = (v, a) ∨ z = (v, b))) =
      (cocientes vs s).filter (fun z => decide (z = (v, a) ∨ z = (v, b))) := by
    have hcongr : ∀ l : List (ℚ × String),
        l.filter (fun z => decide (z = (v, a) ∨ z = (v, b))) =
          (l.filter (fun x => decide (x.1 = v))).filter
            (fun z => decide (z = (v, a) ∨ z = (v, b))) := by
      intro l
      rw [List.filter_filter]
      refine (List.filter_congr ?_).symm
      intro z _
      by_cases hz : z = (v, a) ∨ z = (v, b)
      · have hzv : z.1 = v := by
          rcases hz with rfl | rfl <;> rfl
        simp [hz, hzv]
      · simp [hz]
    rw [hcongr (sortedCocientes vs s), hcongr (cocientes vs s), sortedCocientes,
      filter_val_insertionSort]
  have hrelP := rel_order_filter (v, a) (v, b) hxy (cocientes vs s) hmaP hmbP
  have hrelL := rel_order_filter (v, a) (v, b) hxy (sortedCocientes vs s) hma hmb
  rw [hrelL, hfilter]
  exact hrelP.mp hidxP

/-- Witness for C6: votes A=2, B=1, seats 2; the equal quotients 2/2 = 1/1 = 1
are ranked with A (inserted first) ahead. -/
theorem dhondt_sort_tiebreak_witness :
    idxOf ((1 : ℚ), "A") (sortedCocientes [("A", (2 : ℚ)), ("B", (1 : ℚ))] 2) <
      idxOf ((1 : ℚ), "B") (sortedCocientes [("A", (2 : ℚ)), ("B", (1 : ℚ))] 2) :=
  dhondt_sort_tiebreak [] [] [] "A" "B" 2 1 1 2 (by decide)
    (by
      norm_num [sortedCocientes, cocientes, divisores, List.range_succ,
        List.insertionSort, List.orderedInsert, qge])
    (by
      norm_num [sortedCocientes, cocientes, divisores, List.range_succ,
        List.insertionSort, List.orderedInsert, qge])

/-! ## Monotonicity machinery (C7): the stable descending sort is the strict
lexicographic sort of the position-tagged pool, and taking the first `s`
elements of it selects exactly the pool entries of lexicographic rank below
`s`. -/

theorem lexLe_iff_qge (n : ℕ) (a : ℚ × String) (y : ℕ × ℚ × String) (hy : n < y.1) :
    lexLe (n, a) y ↔ qge a y.2 := by
  unfold lexLe qge
  constructor
  · rintro (h | ⟨h, -⟩)
    · exact le_of_lt h
    · exact le_of_eq h.symm
  · intro h
    rcases lt_or_eq_of_le h with h' | h'
    · exact Or.inl h'
    · exact Or.inr ⟨h'.symm, le_of_lt hy⟩

theorem map_snd_orderedInsert (n : ℕ) (a : ℚ × String) (m : List (ℕ × ℚ × String))
    (hm : ∀ y ∈ m, n < y.1) :
    (List.orderedInsert lexLe (n, a) m).map Prod.snd =
      List.orderedInsert qge a (m.map Prod.snd) := by
  induction m with
  | nil => rfl
  | cons b m' ih =>
    rw [List.map_cons, List.orderedInsert, List.orderedInsert]
    by_cases h : lexLe (n, a) b
    · rw [if_pos h, if_pos ((lexLe_iff_qge n a b (hm b (List.mem_cons_self _ _))).mp h)]
      simp
    · rw [if_neg h, if_neg (fun hq => h ((lexLe_iff_qge n a b (hm b (List.mem_cons_self _ _))).mpr hq))]
      rw [List.map_cons, ih (fun y hy => hm y (List.mem_cons_of_mem _ hy))]

theorem map_snd_insertionSort_enumFrom (l : List (ℚ × String)) :
    ∀ n : ℕ, (List.insertionSort lexLe (List.enumFrom n l)).map Prod.snd =
      List.insertionSort qge l := by
  induction l with
  | nil => intro n; rfl
  | cons a l' ih =>
    intro n
    rw [List.enumFrom_cons]
    simp only [List.insertionSort]
    rw [map_snd_orderedInsert n a _ ?hm, ih (n + 1)]
    case hm =>
      intro y hy
      have hy' : y ∈ List.enumFrom (n + 1) l' :=
        (List.perm_insertionSort lexLe _).mem_iff.mp hy
      obtain ⟨y1, y2⟩ := y
      have h := List.mem_enumFrom hy'
      have := h.1
      omega

theorem lexLt_irrefl (x : ℕ × ℚ × String) : ¬ lexLt x x := by
  unfold lexLt
  rintro (h | ⟨-, h⟩)
  · exact lt_irrefl _ h
  · exact lt_irrefl _ h

theorem lexLt_asymm (x y : ℕ × ℚ × String) (h : lexLt x y) : ¬ lexLt y x := by
  unfold lexLt at h ⊢
  rintro (g | ⟨g, g'⟩) <;> rcases h with h | ⟨h, h'⟩
  · exact lt_asymm h g
  · rw [h] at g
    exact lt_irrefl _ g
  · rw [g] at h
    exact lt_irrefl _ h
  · exact lt_asymm h' g'

theorem lexLe_ne_lexLt (x y : ℕ × ℚ × String) (hle : lexLe x y) (hne : x.1 ≠ y.1) :
    lexLt x y := by
  unfold lexLe at hle
  unfold lexLt
  rcases hle with h | ⟨h, h'⟩
  · exact Or.inl h
  · exact Or.inr ⟨h, lt_of_le_of_ne h' hne⟩

theorem pairwise_lexLt_sortedEnum (P : List (ℚ × String)) :
    List.Pairwise lexLt (List.insertionSort lexLe P.enum) := by
  have hs : List.Sorted lexLe (List.insertionSort lexLe P.enum) :=
    List.sorted_insertionSort lexLe P.enum
  have hperm := List.perm_insertionSort lexLe P.enum
  have hnd : ((List.insertionSort lexLe P.enum).map Prod.fst).Nodup := by
    have h0 : (P.enum.map Prod.fst).Nodup := by
      rw [List.enum_map_fst]
      exact List.nodup_range _
    exact ((hperm.map Prod.fst).nodup_iff).mpr h0
  have hpne : List.Pairwise (fun x y : ℕ × ℚ × String => x.1 ≠ y.1)
      (List.insertionSort lexLe P.enum) := List.pairwise_map.mp hnd
  exact (hs.and hpne).imp (fun hab => lexLe_ne_lexLt _ _ hab.1 hab.2)

theorem take_eq_filter_rank :
    ∀ m : List (ℕ × ℚ × String), List.Pairwise lexLt m → ∀ s : ℕ,
      m.take s = m.filter
        (fun x => decide (m.countP (fun y => decide (lexLt y x)) < s)) := by
  intro m
  induction m with
  | nil => intro _ s; simp
  | cons a tl ih =>
    intro hpw s
    obtain ⟨ha, htl⟩ := List.pairwise_cons.mp hpw
    have hranka : (a :: tl).countP (fun y => decide (lexLt y a)) = 0 := by
      rw [List.countP_cons]
      have h1 : tl.countP (fun y => decide (lexLt y a)) = 0 := by
        rw [List.countP_eq_zero]
        intro y hy
        simp only [decide_eq_true_eq]
        exact lexLt_asymm a y (ha y hy)
      rw [h1]
      simp [lexLt_irrefl a]
    have hrankx : ∀ x ∈ tl, (a :: tl).countP (fun y => decide (lexLt y x)) =
        tl.countP (fun y => decide (lexLt y x)) + 1 := by
      intro x hx
      rw [List.countP_cons]
      simp [ha x hx]
    cases s with
    | zero =>
      have hz : List.filter
          (fun x => decide ((a :: tl).countP (fun y => decide (lexLt y x)) < 0)) (a :: tl) =
          List.filter (fun _ => false) (a :: tl) :=
        List.filter_congr (fun x _ => by simp)
      rw [List.take_zero, hz, List.filter_false]
    | succ s' =>
      rw [List.take_succ_cons, List.filter_cons, if_pos (by simp [hranka])]
      have hcongr : tl.filter
          (fun x => decide ((a :: tl).countP (fun y => decide (lexLt y x)) < s' + 1)) =
          tl.filter (fun x => decide (tl.countP (fun y => decide (lexLt y x)) < s')) :=
        List.filter_congr (fun x hx => by
          rw [decide_eq_decide, hrankx x hx]
          omega)
      rw [hcongr, ← ih htl s']

/-- The per-entity count over the selected quotients, rewritten as a count
over the position-tagged pool of the entries whose lexicographic rank
(value descending, pool position ascending) is below the seat count. -/
theorem ganadores_countP_formula (P : List (ℚ × String)) (sN : ℕ) (p : ℚ × String → Bool) :
    ((List.insertionSort qge P).take sN).countP p =
      P.enum.countP (fun x => p x.2 &&
        decide (P.enum.countP (fun y => decide (lexLt y x)) < sN)) := by
  have hstable : (List.insertionSort lexLe P.enum).map Prod.snd =
      List.insertionSort qge P := map_snd_insertionSort_enumFrom P 0
  have hperm : (List.insertionSort lexLe P.enum).Perm P.enum :=
    List.perm_insertionSort lexLe P.enum
  have hfun : (fun x : ℕ × ℚ × String => p x.2 &&
      decide ((List.insertionSort lexLe P.enum).countP (fun y => decide (lexLt y x)) < sN)) =
      (fun x : ℕ × ℚ × String => p x.2 &&
        decide (P.enum.countP (fun y => decide (lexLt y x)) < sN)) := by
    funext x
    rw [hperm.countP_eq]
  calc ((List.insertionSort qge P).take sN).countP p
      = (((List.insertionSort lexLe P.enum).map Prod.snd).take sN).countP p := by
        rw [hstable]
    _ = (((List.insertionSort lexLe P.enum).take sN).map Prod.snd).countP p := by
        rw [List.map_take]
    _ = ((List.insertionSort lexLe P.enum).take sN).countP (p ∘ Prod.snd) :=
        List.countP_map p Prod.snd _
    _ = ((List.insertionSort lexLe P.enum).filter
          (fun x => decide ((List.insertionSort lexLe P.enum).countP
            (fun y => decide (lexLt y x)) < sN))).countP (p ∘ Prod.snd) := by
        rw [← take_eq_filter_rank _ (pairwise_lexLt_sortedEnum P) sN]
    _ = (List.insertionSort lexLe P.enum).countP (fun x => (p ∘ Prod.snd) x &&
          decide ((List.insertionSort lexLe P.enum).countP
            (fun y => decide (lexLt y x)) < sN)) :=
        List.countP_filter _ _ _
    _ = P.enum.countP (fun x => p x.2 &&
          decide (P.enum.countP (fun y => decide (lexLt y x)) < sN)) := by
        rw [show (fun x : ℕ × ℚ × String => (p ∘ Prod.snd) x &&
            decide ((List.insertionSort lexLe P.enum).countP
              (fun y => decide (lexLt y x)) < sN)) =
            (fun x : ℕ × ℚ × String => p x.2 &&
              decide ((List.insertionSort lexLe P.enum).countP
                (fun y => decide (lexLt y x)) < sN)) from rfl, hfun,
          hperm.countP_eq]

theorem getD_dhondt_eq_countP (vs : List (String × ℚ)) (s : ℤ) (e : String)
    (he : e ∈ vs.map Prod.fst) :
    getD (dhondt_alloc vs s) e = (ganadores vs s).countP (fun w => decide (w.2 = e)) := by
  have he' : e ∈ (vs.map (fun p => (p.1, (0 : ℕ)))).map Prod.fst := by
    rw [List.map_map]
    simpa using he
  rw [dhondt_alloc, getD_foldl_incKey _ _ _ he', getD_init_zero]
  omega

theorem countP_le_of_pointwise {α : Type} (p q : α → Bool) :
    ∀ (xs ys : List α), xs.length = ys.length →
      (∀ (k : ℕ) (hk : k < xs.length) (hk' : k < ys.length),
        p (xs.get ⟨k, hk⟩) = true → q (ys.get ⟨k, hk'⟩) = true) →
      xs.countP p ≤ ys.countP q := by
  intro xs
  induction xs with
  | nil => intro ys _ _; simp
  | cons x xs' ih =>
    intro ys hlen hpt
    cases ys with
    | nil => simp at hlen
    | cons y ys' =>
      rw [List.countP_cons, List.countP_cons]
      have hlen' : xs'.length = ys'.length := by simpa using hlen
      have h0 : p x = true → q y = true := fun hp =>
        hpt 0 (Nat.succ_pos _) (Nat.succ_pos _) hp
      have hrest : xs'.countP p ≤ ys'.countP q := by
        apply ih ys' hlen'
        intro k hk hk' hp
        exact hpt (k + 1) (Nat.succ_lt_succ hk) (Nat.succ_lt_succ hk') hp
      by_cases hpx : p x = true
      · rw [if_pos hpx, if_pos (h0 hpx)]
        omega
      · rw [if_neg hpx]
        by_cases hqy : q y = true
        · rw [if_pos hqy]
          omega
        · rw [if_neg hqy]
          omega

theorem snd_mem_of_mem_enumFrom {α : Type} :
    ∀ (l : List α) (n : ℕ) (y : ℕ × α), y ∈ List.enumFrom n l → y.2 ∈ l := by
  intro l
  induction l with
  | nil => intro n y hy; simp at hy
  | cons a t ih =>
    intro n y hy
    rw [List.enumFrom_cons] at hy
    rcases List.mem_cons.mp hy with rfl | hy'
    · exact List.mem_cons_self _ _
    · exact List.mem_cons_of_mem _ (ih (n + 1) y hy')

theorem getElem_divisores (s : ℤ) (k : ℕ) (hk : k < (divisores s).length) :
    (divisores s)[k] = k + 1 := by
  simp [divisores]

theorem get_enumFrom_blk (n : ℕ) (w : ℚ) (e : String) (s : ℤ) (k : ℕ)
    (hk : k < (List.enumFrom n ((divisores s).map
      (fun (d : ℕ) => (w / (d : ℚ), e)))).length) :
    (List.enumFrom n ((divisores s).map (fun (d : ℕ) => (w / (d : ℚ), e)))).get ⟨k, hk⟩ =
      (n + k, (w / ((k + 1 : ℕ) : ℚ), e)) := by
  have hk1 : k < ((divisores s).map (fun (d : ℕ) => (w / (d : ℚ), e))).length := by
    simpa [List.enumFrom_length] using hk
  have hk2 : k < (divisores s).length := by
    simpa using hk1
  rw [List.get_eq_getElem, List.getElem_enumFrom, List.getElem_map,
    getElem_divisores s k hk2]

/-- When the target of `lexLt` keeps its position and name but its value
drops, everything ranked before it stays ranked before it. -/
theorem lexLt_target_mono (y : ℕ × ℚ × String) (j : ℕ) (nm : String) (q q' : ℚ)
    (hq : q ≤ q') (h : lexLt y (j, q', nm)) : lexLt y (j, q, nm) := by
  unfold lexLt at h ⊢
  rcases h with h | ⟨h, h'⟩
  · exact Or.inl (lt_of_le_of_lt hq h)
  · rcases lt_or_eq_of_le hq with hlt | heq
    · refine Or.inl ?_
      rw [h]
      exact hlt
    · exact Or.inr ⟨h.trans heq.symm, h'⟩

/-- Within the entity's own quotient block, increasing the vote value
preserves the before-relation onto the block's `k`-th entry (the block order
is always: smaller divisor first for a positive value, tie on index for a
zero value). -/
theorem lexLt_own_mono (n k k' : ℕ) (v v' : ℚ) (e : String)
    (hv : 0 ≤ v) (hvv' : v ≤ v')
    (h : lexLt (n + k', (v' / ((k' + 1 : ℕ) : ℚ), e)) (n + k, (v' / ((k + 1 : ℕ) : ℚ), e))) :
    lexLt (n + k', (v / ((k' + 1 : ℕ) : ℚ), e)) (n + k, (v / ((k + 1 : ℕ) : ℚ), e)) := by
  have hd' : (0 : ℚ) < ((k' + 1 : ℕ) : ℚ) := by exact_mod_cast Nat.succ_pos k'
  have hd : (0 : ℚ) < ((k + 1 : ℕ) : ℚ) := by exact_mod_cast Nat.succ_pos k
  have hkk : k' < k := by
    unfold lexLt at h
    rcases h with h | ⟨-, h⟩
    · by_cases hv0 : v' = 0
      · rw [hv0] at h
        simp at h
      · have hvpos : 0 < v' := lt_of_le_of_ne (le_trans hv hvv') (Ne.symm hv0)
        have h1 := (div_lt_div_iff_of_pos_left hvpos hd hd').mp h
        have h2 : (k' + 1 : ℕ) < (k + 1 : ℕ) := by exact_mod_cast h1
        omega
    · simpa using h
  unfold lexLt
  rcases lt_or_eq_of_le hv with hvpos | hv0
  · refine Or.inl ?_
    exact (div_lt_div_iff_of_pos_left hvpos hd hd').mpr
      (by exact_mod_cast Nat.succ_lt_succ hkk)
  · refine Or.inr ⟨?_, by simpa using hkk⟩
    rw [← hv0]
    simp

/-- Enumerated entries of a key-disjoint pool segment never count towards an
entity's seats. -/
theorem countP_enumFrom_other (e : String) (n : ℕ) (L : List (ℚ × String))
    (hL : ∀ z ∈ L, z.2 ≠ e) (g : ℕ × ℚ × String → Bool) :
    (List.enumFrom n L).countP (fun x => decide (x.2.2 = e) && g x) = 0 := by
  rw [List.countP_eq_zero]
  intro y hy
  have hmem : y.2 ∈ L := snd_mem_of_mem_enumFrom L n y hy
  simp [hL y.2 hmem]

/-- C7: `dhondt_alloc` is monotone in each entity's votes: with all other
entries fixed, raising entity `e`'s (non-negative) vote total never decreases
the number of seats allocated to `e`.  The input dict is written as an
arbitrary decomposition `l₁ ++ (e, v) :: l₂` around the changed entity. -/
theorem dhondt_alloc_monotone (l₁ l₂ : List (String × ℚ)) (e : String) (v v' : ℚ)
    (s : ℤ) (hv : 0 ≤ v) (hvv' : v ≤ v')
    (he : e ∉ (l₁ ++ l₂).map Prod.fst) :
    getD (dhondt_alloc (l₁ ++ (e, v) :: l₂) s) e ≤
      getD (dhondt_alloc (l₁ ++ (e, v') :: l₂) s) e := by
  have he₁ : e ∉ l₁.map Prod.fst := fun h => he (by
    rw [List.map_append]
    exact List.mem_append_left _ h)
  have he₂ : e ∉ l₂.map Prod.fst := fun h => he (by
    rw [List.map_append]
    exact List.mem_append_right _ h)
  have hmem : ∀ w : ℚ, e ∈ (l₁ ++ (e, w) :: l₂).map Prod.fst := by
    intro w
    rw [List.map_append]
    exact List.mem_append_right _ (by simp)
  have hform : ∀ w : ℚ, getD (dhondt_alloc (l₁ ++ (e, w) :: l₂) s) e =
      (cocientes (l₁ ++ (e, w) :: l₂) s).enum.countP
        (fun x => decide (x.2.2 = e) &&
          decide ((cocientes (l₁ ++ (e, w) :: l₂) s).enum.countP
            (fun y => decide (lexLt y x)) < s.toNat)) := by
    intro w
    rw [getD_dhondt_eq_countP _ s e (hmem w), ganadores, sortedCocientes,
      ganadores_countP_formula]
  have hdecomp : ∀ w : ℚ, cocientes (l₁ ++ (e, w) :: l₂) s =
      cocientes l₁ s ++
        ((divisores s).map (fun (d : ℕ) => (w / (d : ℚ), e)) ++ cocientes l₂ s) := by
    intro w
    simp only [cocientes, List.flatMap_append, List.flatMap_cons]
  have henum : ∀ w : ℚ, (cocientes (l₁ ++ (e, w) :: l₂) s).enum =
      List.enumFrom 0 (cocientes l₁ s) ++
        (List.enumFrom (cocientes l₁ s).length
          ((divisores s).map (fun (d : ℕ) => (w / (d : ℚ), e))) ++
         List.enumFrom ((cocientes l₁ s).length + s.toNat) (cocientes l₂ s)) := by
    intro w
    show List.enumFrom 0 _ = _
    rw [hdecomp w, List.enumFrom_append, List.enumFrom_append]
    simp [divisores_length]
  have hkeys₁ : ∀ z ∈ cocientes l₁ s, z.2 ≠ e := fun z hz hez =>
    he₁ (hez ▸ mem_cocientes_keys l₁ s z hz)
  have hkeys₂ : ∀ z ∈ cocientes l₂ s, z.2 ≠ e := fun z hz hez =>
    he₂ (hez ▸ mem_cocientes_keys l₂ s z hz)
  have hranklemma : ∀ k : ℕ,
      (cocientes (l₁ ++ (e, v') :: l₂) s).enum.countP
        (fun y => decide (lexLt y
          ((cocientes l₁ s).length + k, (v' / ((k + 1 : ℕ) : ℚ), e)))) ≤
      (cocientes (l₁ ++ (e, v) :: l₂) s).enum.countP
        (fun y => decide (lexLt y
          ((cocientes l₁ s).length + k, (v / ((k + 1 : ℕ) : ℚ), e)))) := by
    intro k
    have hq : v / ((k + 1 : ℕ) : ℚ) ≤ v' / ((k + 1 : ℕ) : ℚ) :=
      div_le_div_of_nonneg_right hvv' (Nat.cast_nonneg _)
    rw [henum v, henum v']
    rw [List.countP_append, List.countP_append, List.countP_append, List.countP_append]
    have hA : (List.enumFrom 0 (cocientes l₁ s)).countP
        (fun y => decide (lexLt y
          ((cocientes l₁ s).length + k, (v' / ((k + 1 : ℕ) : ℚ), e)))) ≤
        (List.enumFrom 0 (cocientes l₁ s)).countP
        (fun y => decide (lexLt y
          ((cocientes l₁ s).length + k, (v / ((k + 1 : ℕ) : ℚ), e)))) :=
      List.countP_mono_left (fun y _ hy => by
        simp only [decide_eq_true_eq] at hy ⊢
        exact lexLt_target_mono y _ _ _ _ hq hy)
    have hC : (List.enumFrom ((cocientes l₁ s).length + s.toNat) (cocientes l₂ s)).countP
        (fun y => decide (lexLt y
          ((cocientes l₁ s).length + k, (v' / ((k + 1 : ℕ) : ℚ), e)))) ≤
        (List.enumFrom ((cocientes l₁ s).length + s.toNat) (cocientes l₂ s)).countP
        (fun y => decide (lexLt y
          ((cocientes l₁ s).length + k, (v / ((k + 1 : ℕ) : ℚ), e)))) :=
      List.countP_mono_left (fun y _ hy => by
        simp only [decide_eq_true_eq] at hy ⊢
        exact lexLt_target_mono y _ _ _ _ hq hy)
    have hB : (List.enumFrom (cocientes l₁ s).length
        ((divisores s).map (fun (d : ℕ) => (v' / (d : ℚ), e)))).countP
        (fun y => decide (lexLt y
          ((cocientes l₁ s).length + k, (v' / ((k + 1 : ℕ) : ℚ), e)))) ≤
        (List.enumFrom (cocientes l₁ s).length
          ((divisores s).map (fun (d : ℕ) => (v / (d : ℚ), e)))).countP
        (fun y => decide (lexLt y
          ((cocientes l₁ s).length + k, (v / ((k + 1 : ℕ) : ℚ), e)))) := by
      apply countP_le_of_pointwise
      · simp [List.enumFrom_length]
      · intro k' hk1 hk2 hp
        rw [get_enumFrom_blk] at hp ⊢
        simp only [decide_eq_true_eq] at hp ⊢
        exact lexLt_own_mono _ k k' v v' e hv hvv' hp
    omega
  rw [hform v, hform v', henum v, henum v']
  rw [List.countP_append, List.countP_append, List.countP_append, List.countP_append]
  rw [countP_enumFrom_other e 0 (cocientes l₁ s) hkeys₁,
    countP_enumFrom_other e 0 (cocientes l₁ s) hkeys₁,
    countP_enumFrom_other e ((cocientes l₁ s).length + s.toNat) (cocientes l₂ s) hkeys₂,
    countP_enumFrom_other e ((cocientes l₁ s).length + s.toNat) (cocientes l₂ s) hkeys₂]
  simp only [Nat.zero_add, Nat.add_zero]
  apply countP_le_of_pointwise
  · simp [List.enumFrom_length]
  · intro k hk1 hk2 hp
    rw [get_enumFrom_blk] at hp ⊢
    simp only [Bool.and_eq_true, decide_eq_true_eq] at hp ⊢
    refine ⟨trivial, ?_⟩
    have hr := hranklemma k
    rw [henum v, henum v'] at hr
    exact lt_of_le_of_lt hr hp.2

/-- Witness for C7: raising E's votes from 1 to 3 (other entity X fixed at 5,
two seats) does not decrease E's seats. -/
theorem dhondt_alloc_monotone_witness :
    getD (dhondt_alloc ([("X", (5 : ℚ))] ++ ("E", (1 : ℚ)) :: []) 2) "E" ≤
      getD (dhondt_alloc ([("X", (5 : ℚ))] ++ ("E", (3 : ℚ)) :: []) 2) "E" :=
  dhondt_alloc_monotone [("X", (5 : ℚ))] [] "E" 1 3 2 (by norm_num) (by norm_num)
    (by decide)

/-! ## The reconciler loop: decomposition into pure match decisions (C4, C9) -/

theorem assignLoop_eq_decisions (θ : ℚ) (names rawNames : List String) :
    ∀ (entries : List (Nat × Encuesta)) (cs : List CandRec) (mC mE : List Nat),
      assignLoop θ names rawNames entries ⟨cs, mC, mE⟩ =
        (loopDecisions θ names rawNames entries mC mE).map
          (fun r => ⟨r.1.foldl applyUpd cs, r.2.1, r.2.2⟩) := by
  intro entries
  induction entries with
  | nil => intro cs mC mE; rfl
  | cons p rest ih =>
    intro cs mC mE
    obtain ⟨eIdx, enc⟩ := p
    simp only [assignLoop, loopDecisions]
    rcases hbm : (bestCandidate (normalize enc.nombre) names).1 with _ | i <;> dsimp only
    · exact ih cs mC mE
    · by_cases hθ : θ ≤ (bestCandidate (normalize enc.nombre) names).2
      · rw [if_pos hθ, if_pos hθ]
        by_cases hdup : i ∈ mC
        · rw [if_pos hdup, if_pos hdup]
          rfl
        · rw [if_neg hdup, if_neg hdup, ih]
          cases hld : loopDecisions θ names rawNames rest (i :: mC) (eIdx :: mE) with
          | error e => rfl
          | ok r => rfl
      · rw [if_neg hθ, if_neg hθ]
        exact ih cs mC mE

theorem loopDecisions_ok_facts (θ : ℚ) (names rawNames : List String) :
    ∀ (entries : List (Nat × Encuesta)) (mC mE : List Nat)
      (us : List (Nat × Encuesta × ℚ)) (mC' mE' : List Nat),
      loopDecisions θ names rawNames entries mC mE = .ok (us, mC', mE') →
      (∀ j : ℕ, j ∈ mC' ↔ j ∈ us.map Prod.fst ∨ j ∈ mC) ∧
      (us.map Prod.fst).Nodup ∧ (∀ u ∈ us, u.1 ∉ mC) := by
  intro entries
  induction entries with
  | nil =>
    intro mC mE us mC' mE' h
    simp only [loopDecisions] at h
    injection h with h'
    injection h' with hus h23
    injection h23 with hmC hmE
    subst hus
    subst hmC
    exact ⟨fun j => by simp, by simp, by simp⟩
  | cons p rest ih =>
    intro mC mE us mC' mE' h
    obtain ⟨eIdx, enc⟩ := p
    simp only [loopDecisions] at h
    rcases hbm : (bestCandidate (normalize enc.nombre) names).1 with _ | i <;>
      rw [hbm] at h <;> dsimp only at h
    · exact ih mC mE us mC' mE' h
    · by_cases hθ : θ ≤ (bestCandidate (normalize enc.nombre) names).2
      · rw [if_pos hθ] at h
        by_cases hdup : i ∈ mC
        · rw [if_pos hdup] at h
          exact Except.noConfusion h
        · rw [if_neg hdup] at h
          cases hld : loopDecisions θ names rawNames rest (i :: mC) (eIdx :: mE) with
          | error e =>
            rw [hld] at h
            exact Except.noConfusion h
          | ok r =>
            rw [hld] at h
            simp only [Except.map] at h
            obtain ⟨r1, r2, r3⟩ := r
            obtain ⟨hiff, hnd, hnotin⟩ := ih (i :: mC) (eIdx :: mE) r1 r2 r3 hld
            injection h with h'
            injection h' with hus h23
            injection h23 with hmC hmE
            subst hus
            subst hmC
            refine ⟨?_, ?_, ?_⟩
            · intro j
              rw [hiff j]
              simp only [List.map_cons, List.mem_cons]
              tauto
            · simp only [List.map_cons, List.nodup_cons]
              refine ⟨?_, hnd⟩
              intro hmemi
              obtain ⟨u, hu, hu1⟩ := List.mem_map.mp hmemi
              refine hnotin u hu ?_
              rw [hu1]
              exact List.mem_cons_self _ _
            · intro u hu
              rcases List.mem_cons.mp hu with rfl | hu'
              · exact hdup
              · exact fun hin => hnotin u hu' (List.mem_cons_of_mem _ hin)
      · rw [if_neg hθ] at h
        exact ih mC mE us mC' mE' h

theorem get?_modifyIdx {α : Type} (f : α → α) (i j : ℕ) (l : List α) :
    (modifyIdx f i l).get? j = if i = j then (l.get? j).map f else l.get? j := by
  induction l generalizing i j with
  | nil =>
    simp only [modifyIdx, List.get?_nil, Option.map_none']
    split <;> rfl
  | cons c t ih =>
    cases i with
    | zero =>
      cases j with
      | zero => simp [modifyIdx]
      | succ j' => simp [modifyIdx]
    | succ i' =>
      cases j with
      | zero => simp [modifyIdx]
      | succ j' =>
        simp only [modifyIdx, List.get?_cons_succ, ih i' j']
        by_cases hij : i' = j'
        · simp [hij]
        · simp [hij, fun h => hij (Nat.succ_injective h)]

theorem get?_foldl_applyUpd :
    ∀ (us : List (ℕ × Encuesta × ℚ)) (x : List CandRec) (j : ℕ),
      (us.map Prod.fst).Nodup →
      (us.foldl applyUpd x).get? j =
        (match us.find? (fun u => u.1 == j) with
          | some u => (x.get? j).map (applyMatch u.2.1 u.2.2)
          | none => x.get? j) := by
  intro us
  induction us with
  | nil => intro x j _; rfl
  | cons u us' ih =>
    intro x j hnd
    rw [List.foldl_cons]
    have hnd0 : u.1 ∉ us'.map Prod.fst ∧ (us'.map Prod.fst).Nodup := by
      simpa [List.nodup_cons] using hnd
    by_cases hj : u.1 = j
    · rw [List.find?_cons_of_pos _ (by simp [hj])]
      rw [ih (applyUpd x u) j hnd0.2]
      have hnone : us'.find? (fun w => w.1 == j) = none := by
        rw [List.find?_eq_none]
        intro w hw
        simp only [beq_iff_eq]
        intro hwj
        apply hnd0.1
        rw [hj, ← hwj]
        exact List.mem_map_of_mem Prod.fst hw
      rw [hnone]
      show (modifyIdx (applyMatch u.2.1 u.2.2) u.1 x).get? j = _
      rw [get?_modifyIdx, if_pos hj]
    · rw [List.find?_cons_of_neg _ (by simp [hj])]
      rw [ih (applyUpd x u) j hnd0.2]
      have hx : (applyUpd x u).get? j = x.get? j := by
        show (modifyIdx (applyMatch u.2.1 u.2.2) u.1 x).get? j = _
        rw [get?_modifyIdx, if_neg hj]
      cases hfind : us'.find? (fun w => w.1 == j) with
      | none => rw [hx]
      | some w => rw [hx]

theorem get?_postPass (cs : List CandRec) (m : List Nat) (j : ℕ) :
    (postPass cs m).get? j = (cs.get? j).map
      (fun c => if j ∈ m then c else unmatchedReset c) := by
  rw [postPass, List.get?_map, List.get?_enum, Option.map_map]
  rfl

theorem map_name_modifyIdx (f : CandRec → CandRec) (hf : ∀ c, (f c).name = c.name) :
    ∀ (i : ℕ) (l : List CandRec),
      (modifyIdx f i l).map (fun c => c.name) = l.map (fun c => c.name) := by
  intro i
  induction i with
  | zero =>
    intro l
    cases l with
    | nil => rfl
    | cons c t => simp [modifyIdx, hf c]
  | succ i' ih =>
    intro l
    cases l with
    | nil => rfl
    | cons c t => simp [modifyIdx, ih t]

theorem map_name_foldl_applyUpd :
    ∀ (us : List (ℕ × Encuesta × ℚ)) (x : List CandRec),
      (us.foldl applyUpd x).map (fun c => c.name) = x.map (fun c => c.name) := by
  intro us
  induction us with
  | nil => intro x; rfl
  | cons u us' ih =>
    intro x
    rw [List.foldl_cons, ih]
    exact map_name_modifyIdx (applyMatch u.2.1 u.2.2) (fun c => rfl) u.1 x

theorem map_name_postPass (cs : List CandRec) (m : List Nat) :
    (postPass cs m).map (fun c => c.name) = cs.map (fun c => c.name) := by
  rw [postPass]
  have hgen : ∀ (l : List CandRec) (n : ℕ),
      ((List.enumFrom n l).map (fun p => if p.1 ∈ m then p.2 else unmatchedReset p.2)).map
        (fun c => c.name) = l.map (fun c => c.name) := by
    intro l
    induction l with
    | nil => intro n; rfl
    | cons c t ih =>
      intro n
      rw [List.enumFrom_cons]
      simp only [List.map_cons]
      rw [ih (n + 1)]
      by_cases hn : n ∈ m <;> simp [hn, unmatchedReset]
  exact hgen cs 0

/-- C9: `assign_votes_to_candidates` is a pure function of its inputs
(determinism), and it is idempotent: feeding a successful run's output back
in with the same poll list and threshold succeeds and reproduces the output
exactly — identical vote assignments, `matched_from` provenance and
`match_quality` values. -/
theorem assign_votes_idempotent (cands : List CandRec) (encs : List Encuesta) (θ : ℚ)
    (cs' : List CandRec)
    (h : assign_votes_to_candidates cands encs θ = .ok cs') :
    assign_votes_to_candidates cs' encs θ = .ok cs' := by
  unfold assign_votes_to_candidates at h ⊢
  by_cases hemp : encs.isEmpty
  · rw [if_pos hemp] at h ⊢
    have hcs : cs' = cands.map clearCand := (Except.ok.inj h).symm
    subst hcs
    have hcc : clearCand ∘ clearCand = clearCand := funext (fun c => rfl)
    rw [List.map_map, hcc]
  · rw [if_neg hemp] at h ⊢
    cases hloop : assignLoop θ (cands.map (fun c => normalize c.name))
        (cands.map (fun c => c.name)) encs.enum ⟨cands, [], []⟩ with
    | error e =>
      rw [hloop] at h
      exact Except.noConfusion h
    | ok st =>
      rw [hloop] at h
      have hcs' : cs' = postPass st.cands st.matchedC := (Except.ok.inj h).symm
      rw [assignLoop_eq_decisions] at hloop
      cases hld : loopDecisions θ (cands.map (fun c => normalize c.name))
          (cands.map (fun c => c.name)) encs.enum [] [] with
      | error e =>
        rw [hld] at hloop
        exact Except.noConfusion hloop
      | ok r =>
        obtain ⟨us, mC', mE'⟩ := r
        rw [hld] at hloop
        simp only [Except.map] at hloop
        have hst := Except.ok.inj hloop
        obtain ⟨hiff0, hnd, -⟩ :=
          loopDecisions_ok_facts θ _ _ encs.enum [] [] us mC' mE' hld
        have hiff : ∀ j, j ∈ mC' ↔ j ∈ us.map Prod.fst := by
          intro j
          rw [hiff0 j]
          simp
        have hcs'2 : cs' = postPass (us.foldl applyUpd cands) mC' := by
          rw [hcs', ← hst]
        have hname : cs'.map (fun c => c.name) = cands.map (fun c => c.name) := by
          rw [hcs'2, map_name_postPass, map_name_foldl_applyUpd]
        have hname2 : cs'.map (fun c => normalize c.name) =
            cands.map (fun c => normalize c.name) := by
          have h1 : ∀ l : List CandRec, l.map (fun c => normalize c.name) =
              (l.map (fun c => c.name)).map normalize := by
            intro l
            rw [List.map_map]
            rfl
          rw [h1, h1, hname]
        rw [hname, hname2, assignLoop_eq_decisions, hld]
        simp only [Except.map]
        have hcsj : ∀ j : ℕ, cs'.get? j =
            (match us.find? (fun (u : ℕ × Encuesta × ℚ) => u.1 == j) with
              | some u => (cands.get? j).map (applyMatch u.2.1 u.2.2)
              | none => cands.get? j).map
              (fun c => if j ∈ mC' then c else unmatchedReset c) := by
          intro j
          rw [hcs'2, get?_postPass, get?_foldl_applyUpd us cands j hnd]
        have hfinal : postPass (us.foldl applyUpd cs') mC' = cs' := by
          apply List.ext
          intro j
          rw [get?_postPass, get?_foldl_applyUpd us cs' j hnd]
          by_cases hj : j ∈ us.map Prod.fst
          · have hjm : j ∈ mC' := (hiff j).mpr hj
            have hsome : ∃ u, us.find? (fun u => u.1 == j) = some u := by
              have h1 : (us.find? (fun u => u.1 == j)).isSome := by
                rw [List.find?_isSome]
                obtain ⟨u, hu, hu1⟩ := List.mem_map.mp hj
                exact ⟨u, hu, by simp [hu1]⟩
              exact Option.isSome_iff_exists.mp h1
            obtain ⟨u, hu⟩ := hsome
            have hcsj' := hcsj j
            rw [hu] at hcsj'
            rw [hu, hcsj']
            cases hcj : cands.get? j with
            | none => simp
            | some c =>
              simp only [Option.map_some', if_pos hjm]
              rfl
          · have hnone : us.find? (fun u => u.1 == j) = none := by
              rw [List.find?_eq_none]
              intro w hw
              simp only [beq_iff_eq]
              intro hwj
              exact hj (hwj ▸ List.mem_map_of_mem Prod.fst hw)
            have hjm : j ∉ mC' := fun hin => hj ((hiff j).mp hin)
            have hcsj' := hcsj j
            rw [hnone] at hcsj'
            rw [hnone, hcsj']
            cases hcj : cands.get? j with
            | none => simp
            | some c =>
              simp only [Option.map_some', if_neg hjm]
              rfl
        rw [hfinal]

/-- One-step shift of the error characterization of the poll-entry loop, for
a step that neither errors nor could have errored (its own entry does not hit
an already-matched best candidate at or above the threshold). -/
theorem assignLoop_error_shift (θ : ℚ) (names rawNames : List String)
    (eIdx : ℕ) (enc : Encuesta) (rest : List (Nat × Encuesta)) (st st₁ : MatchSt)
    (hstep : ∀ tail : List (Nat × Encuesta),
      assignLoop θ names rawNames ((eIdx, enc) :: tail) st =
        assignLoop θ names rawNames tail st₁)
    (hnotdup : ¬ ∃ i : ℕ, (bestCandidate (normalize enc.nombre) names).1 = some i ∧
      θ ≤ (bestCandidate (normalize enc.nombre) names).2 ∧ i ∈ st.matchedC)
    (ihst : (∃ msg, assignLoop θ names rawNames rest st₁ = .error msg) ↔
      ∃ k : ℕ, ∃ hk : k < rest.length, ∃ st' : MatchSt,
        assignLoop θ names rawNames (rest.take k) st₁ = .ok st' ∧
        ∃ i : ℕ,
          (bestCandidate (normalize (rest.get ⟨k, hk⟩).2.nombre) names).1 = some i ∧
          θ ≤ (bestCandidate (normalize (rest.get ⟨k, hk⟩).2.nombre) names).2 ∧
          i ∈ st'.matchedC) :
    (∃ msg, assignLoop θ names rawNames ((eIdx, enc) :: rest) st = .error msg) ↔
      ∃ k : ℕ, ∃ hk : k < ((eIdx, enc) :: rest).length, ∃ st' : MatchSt,
        assignLoop θ names rawNames (((eIdx, enc) :: rest).take k) st = .ok st' ∧
        ∃ i : ℕ,
          (bestCandidate (normalize (((eIdx, enc) :: rest).get ⟨k, hk⟩).2.nombre)
            names).1 = some i ∧
          θ ≤ (bestCandidate (normalize (((eIdx, enc) :: rest).get ⟨k, hk⟩).2.nombre)
            names).2 ∧
          i ∈ st'.matchedC := by
  rw [hstep rest, ihst]
  constructor
  · rintro ⟨k, hk, st', hpre, hcond⟩
    refine ⟨k + 1, Nat.succ_lt_succ hk, st', ?_, hcond⟩
    rw [List.take_succ_cons, hstep (rest.take k)]
    exact hpre
  · rintro ⟨k, hk, st', hpre, hcond⟩
    cases k with
    | zero =>
      exfalso
      obtain ⟨i, hi, hθ, hdup⟩ := hcond
      have hi' : (bestCandidate (normalize enc.nombre) names).1 = some i := hi
      have hθ' : θ ≤ (bestCandidate (normalize enc.nombre) names).2 := hθ
      have hpre' : Except.ok (ε := String) st = Except.ok st' := hpre
      have hst' : st' = st := (Except.ok.inj hpre').symm
      exact hnotdup ⟨i, hi', hθ', hst' ▸ hdup⟩
    | succ k' =>
      rw [List.take_succ_cons, hstep (rest.take k')] at hpre
      exact ⟨k', Nat.lt_of_succ_lt_succ hk, st', hpre, hcond⟩

/-- The poll-entry loop errors exactly when some entry's best candidate is at
or above the threshold and already matched at that point of the run. -/
theorem assignLoop_error_iff (θ : ℚ) (names rawNames : List String) :
    ∀ (entries : List (Nat × Encuesta)) (st : MatchSt),
      (∃ msg, assignLoop θ names rawNames entries st = .error msg) ↔
      ∃ k : ℕ, ∃ hk : k < entries.length, ∃ st' : MatchSt,
        assignLoop θ names rawNames (entries.take k) st = .ok st' ∧
        ∃ i : ℕ,
          (bestCandidate (normalize (entries.get ⟨k, hk⟩).2.nombre) names).1 = some i ∧
          θ ≤ (bestCandidate (normalize (entries.get ⟨k, hk⟩).2.nombre) names).2 ∧
          i ∈ st'.matchedC := by
  intro entries
  induction entries with
  | nil =>
    intro st
    constructor
    · rintro ⟨msg, hmsg⟩
      exact Except.noConfusion hmsg
    · rintro ⟨k, hk, -⟩
      exact absurd hk (Nat.not_lt_zero k)
  | cons p rest ih =>
    intro st
    obtain ⟨eIdx, enc⟩ := p
    rcases hbm : (bestCandidate (normalize enc.nombre) names).1 with _ | i
    · refine assignLoop_error_shift θ names rawNames eIdx enc rest st st ?_ ?_ (ih st)
      · intro tail
        simp only [assignLoop, hbm]
      · rintro ⟨i, hi, -, -⟩
        rw [hbm] at hi
        exact Option.noConfusion hi
    · by_cases hθ : θ ≤ (bestCandidate (normalize enc.nombre) names).2
      · by_cases hdup : i ∈ st.matchedC
        · constructor
          · intro _
            exact ⟨0, Nat.succ_pos _, st, rfl, i, hbm, hθ, hdup⟩
          · intro _
            refine ⟨"Candidato " ++ rawNames.getD i "" ++ " duplicado", ?_⟩
            simp only [assignLoop, hbm]
            rw [if_pos hθ, if_pos hdup]
        · refine assignLoop_error_shift θ names rawNames eIdx enc rest st
            ⟨modifyIdx (applyMatch enc (bestCandidate (normalize enc.nombre) names).2) i
              st.cands, i :: st.matchedC, eIdx :: st.matchedE⟩ ?_ ?_ (ih _)
          · intro tail
            simp only [assignLoop, hbm]
            rw [if_pos hθ, if_neg hdup]
          · rintro ⟨i', hi', -, hdup'⟩
            rw [hbm] at hi'
            injection hi' with hii
            rw [← hii] at hdup'
            exact hdup hdup'
      · refine assignLoop_error_shift θ names rawNames eIdx enc rest st st ?_ ?_ (ih st)
        · intro tail
          simp only [assignLoop, hbm]
          rw [if_neg hθ]
        · rintro ⟨i', -, hθ', -⟩
          exact hθ hθ'

/-- C4: `assign_votes_to_candidates` raises its duplicate-match error if and
only if, at some poll entry, the best candidate of the whole scan is at or
above the threshold and was already matched by an earlier entry; entries
whose best ratio stays below the threshold never make the operation fail. -/
theorem assign_error_iff_duplicate (cands : List CandRec) (encs : List Encuesta) (θ : ℚ) :
    (∃ msg, assign_votes_to_candidates cands encs θ = .error msg) ↔
      ∃ k : ℕ, ∃ hk : k < encs.enum.length, ∃ st' : MatchSt,
        assignLoop θ (cands.map (fun c => normalize c.name)) (cands.map (fun c => c.name))
          (encs.enum.take k) ⟨cands, [], []⟩ = .ok st' ∧
        ∃ i : ℕ,
          (bestCandidate (normalize (encs.enum.get ⟨k, hk⟩).2.nombre)
            (cands.map (fun c => normalize c.name))).1 = some i ∧
          θ ≤ (bestCandidate (normalize (encs.enum.get ⟨k, hk⟩).2.nombre)
            (cands.map (fun c => normalize c.name))).2 ∧
          i ∈ st'.matchedC := by
  rw [← assignLoop_error_iff θ (cands.map (fun c => normalize c.name))
    (cands.map (fun c => c.name)) encs.enum ⟨cands, [], []⟩]
  unfold assign_votes_to_candidates
  by_cases hemp : encs.isEmpty
  · rw [if_pos hemp]
    have hnil : encs = [] := List.isEmpty_iff.mp hemp
    subst hnil
    constructor
    · rintro ⟨msg, h⟩
      exact Except.noConfusion h
    · rintro ⟨msg, h⟩
      have h' : Except.ok (ε := String) (⟨cands, [], []⟩ : MatchSt) = Except.error msg := h
      exact Except.noConfusion h'
  · rw [if_neg hemp]
    cases hloop : assignLoop θ (cands.map (fun c => normalize c.name))
        (cands.map (fun c => c.name)) encs.enum ⟨cands, [], []⟩ with
    | error e =>
      constructor
      · intro _
        exact ⟨e, rfl⟩
      · intro _
        exact ⟨e, rfl⟩
    | ok st =>
      constructor
      · rintro ⟨msg, h⟩
        exact Except.noConfusion h
      · rintro ⟨msg, h⟩
        exact Except.noConfusion h

/-! ## Per-entry selection behaviour (C5) -/

/-- C5 counterexample: two candidates both named "ana"; the second poll entry
"ana" has the not-yet-matched candidate 2 at ratio 1 ≥ 0.8, yet the code does
NOT select the best among the not-yet-matched candidates — it selects the
overall best (candidate 1, already matched) and raises the duplicate error
instead of assigning the votes. -/
theorem assign_selection_cex :
    assign_votes_to_candidates
        [⟨"1", "ana", 0, "P", none, 0⟩, ⟨"2", "ana", 0, "P", none, 0⟩]
        [⟨"ana", 10⟩, ⟨"ana", 20⟩] (4 / 5) =
      .error "Candidato ana duplicado" ∧
    (4 / 5 : ℚ) ≤ smRatio (normalize "ana").data (normalize "ana").data := by
  constructor
  · norm_num [assign_votes_to_candidates, assignLoop, bestCandidate, bestCandidateAux,
      smRatio, List.enum, List.enumFrom, applyMatch, modifyIdx,
      (by decide : normalize "ana" = "ana"),
      (by decide : matchingSize "ana".data "ana".data = 3)]
    decide
  · norm_num [smRatio, (by decide : normalize "ana" = "ana"),
      (by decide : matchingSize "ana".data "ana".data = 3)]

theorem bestCandidateAux_spec (target : String) :
    ∀ (names : List String) (i0 : ℕ) (acc : Option ℕ × ℚ),
      acc.2 ≤ (bestCandidateAux target names i0 acc).2 ∧
      (∀ k (hk : k < names.length),
        smRatio target.data (names.get ⟨k, hk⟩).data ≤
          (bestCandidateAux target names i0 acc).2) ∧
      (bestCandidateAux target names i0 acc = acc ∨
        ∃ k, ∃ hk : k < names.length,
          (bestCandidateAux target names i0 acc).1 = some (i0 + k) ∧
          (bestCandidateAux target names i0 acc).2 =
            smRatio target.data (names.get ⟨k, hk⟩).data ∧
          (∀ j (hj : j < names.length), j < k →
            smRatio target.data (names.get ⟨j, hj⟩).data <
              (bestCandidateAux target names i0 acc).2) ∧
          acc.2 < (bestCandidateAux target names i0 acc).2) := by
  intro names
  induction names with
  | nil =>
    intro i0 acc
    exact ⟨le_refl _, fun k hk => absurd hk (Nat.not_lt_zero k), Or.inl rfl⟩
  | cons nm rest ih =>
    intro i0 acc
    have hunf : bestCandidateAux target (nm :: rest) i0 acc =
        bestCandidateAux target rest (i0 + 1)
          (if smRatio target.data nm.data > acc.2
            then (some i0, smRatio target.data nm.data) else acc) := rfl
    by_cases hr : smRatio target.data nm.data > acc.2
    · rw [hunf, if_pos hr]
      obtain ⟨ih1, ih2, ih3⟩ := ih (i0 + 1) (some i0, smRatio target.data nm.data)
      refine ⟨le_trans (le_of_lt hr) ih1, ?_, ?_⟩
      · intro k hk
        cases k with
        | zero => exact ih1
        | succ k' => exact ih2 k' (Nat.lt_of_succ_lt_succ hk)
      · rcases ih3 with heq | ⟨k, hk, h1, h2, h3, h4⟩
        · right
          refine ⟨0, Nat.succ_pos _, ?_, ?_, ?_, ?_⟩
          · rw [heq]
            simp
          · rw [heq]
            rfl
          · intro j hj hj0
            exact absurd hj0 (Nat.not_lt_zero j)
          · rw [heq]
            exact hr
        · right
          refine ⟨k + 1, Nat.succ_lt_succ hk, ?_, h2, ?_, lt_trans hr h4⟩
          · rw [h1]
            congr 1
            omega
          · intro j hj hjk
            cases j with
            | zero => exact h4
            | succ j' =>
              exact h3 j' (Nat.lt_of_succ_lt_succ hj) (Nat.lt_of_succ_lt_succ hjk)
    · rw [hunf, if_neg hr]
      obtain ⟨ih1, ih2, ih3⟩ := ih (i0 + 1) acc
      refine ⟨ih1, ?_, ?_⟩
      · intro k hk
        cases k with
        | zero => exact le_trans (not_lt.mp hr) ih1
        | succ k' => exact ih2 k' (Nat.lt_of_succ_lt_succ hk)
      · rcases ih3 with heq | ⟨k, hk, h1, h2, h3, h4⟩
        · exact Or.inl heq
        · right
          refine ⟨k + 1, Nat.succ_lt_succ hk, ?_, h2, ?_, h4⟩
          · rw [h1]
            congr 1
            omega
          · intro j hj hjk
            cases j with
            | zero => exact lt_of_le_of_lt (not_lt.mp hr) h4
            | succ j' =>
              exact h3 j' (Nat.lt_of_succ_lt_succ hj) (Nat.lt_of_succ_lt_succ hjk)

/-- C5 amended: for each poll entry the scan selects the single
highest-ratio candidate among ALL candidates, the earliest index on ties
(every candidate's ratio is at most the winner's and every earlier one is
strictly below it); if that ratio is at or above the threshold and the
winner is not yet matched, the entry's vote count is written to the winner
with the raw poll name and the ratio rounded to 3 decimals as provenance; if
the best ratio is below the threshold (or there is no candidate at all), the
poll entry leaves the whole state unchanged and so contributes no votes. -/
theorem assign_step_selection (θ : ℚ) (names rawNames : List String)
    (eIdx : ℕ) (enc : Encuesta) (rest : List (Nat × Encuesta)) (st : MatchSt) :
    (∀ i r, bestCandidate (normalize enc.nombre) names = (some i, r) →
      ∃ hi : i < names.length,
        r = smRatio (normalize enc.nombre).data (names.get ⟨i, hi⟩).data ∧
        (∀ j (hj : j < names.length),
          smRatio (normalize enc.nombre).data (names.get ⟨j, hj⟩).data ≤ r) ∧
        (∀ j (hj : j < names.length), j < i →
          smRatio (normalize enc.nombre).data (names.get ⟨j, hj⟩).data < r)) ∧
    (∀ i r, bestCandidate (normalize enc.nombre) names = (some i, r) → θ ≤ r →
      i ∉ st.matchedC →
      assignLoop θ names rawNames ((eIdx, enc) :: rest) st =
        assignLoop θ names rawNames rest
          ⟨modifyIdx (applyMatch enc r) i st.cands,
            i :: st.matchedC, eIdx :: st.matchedE⟩ ∧
      ∀ hi : i < st.cands.length,
        (modifyIdx (applyMatch enc r) i st.cands).get? i =
          some { st.cands.get ⟨i, hi⟩ with
            votes := enc.votos
            matched_from := some enc.nombre
            match_quality := round3 r }) ∧
    (((bestCandidate (normalize enc.nombre) names).2 < θ ∨
        (bestCandidate (normalize enc.nombre) names).1 = none) →
      assignLoop θ names rawNames ((eIdx, enc) :: rest) st =
        assignLoop θ names rawNames rest st) := by
  refine ⟨?_, ?_, ?_⟩
  · intro i r hres
    obtain ⟨-, h2, h3⟩ := bestCandidateAux_spec (normalize enc.nombre) names 0 (none, 0)
    rcases h3 with heq | ⟨k, hk, hk1, hk2, hk3, -⟩
    · rw [bestCandidate, heq] at hres
      exact absurd (congrArg Prod.fst hres) (by simp)
    · rw [bestCandidate] at hres
      have hik : i = k := by
        have := hk1
        rw [hres] at this
        simpa using this
      subst hik
      refine ⟨hk, ?_, ?_, ?_⟩
      · have := hk2
        rw [hres] at this
        exact this
      · intro j hj
        have := h2 j hj
        rw [hres] at this
        exact this
      · intro j hj hji
        have := hk3 j hj hji
        rw [hres] at this
        exact this
  · intro i r hres hθ hmem
    have h1 : (bestCandidate (normalize enc.nombre) names).1 = some i := by rw [hres]
    have h2 : (bestCandidate (normalize enc.nombre) names).2 = r := by rw [hres]
    constructor
    · simp only [assignLoop, h1, h2]
      rw [if_pos hθ, if_neg hmem]
    · intro hi
      rw [get?_modifyIdx, if_pos rfl, List.get?_eq_get hi]
      rfl
  · intro hskip
    rcases hskip with hlt | hnone
    · rcases hbm1 : (bestCandidate (normalize enc.nombre) names).1 with _ | i
      · simp only [assignLoop, hbm1]
      · simp only [assignLoop, hbm1]
        rw [if_neg (not_le.mpr hlt)]
    · simp only [assignLoop, hnone]

/-- Witness for the amended C5: one candidate "ana", poll entry "ana" with 7
votes at threshold 0.8 — the step writes votes 7, raw name "ana" and rounded
ratio 1 onto candidate 0. -/
theorem assign_step_selection_witness :
    assignLoop (4 / 5) ["ana"] ["ana"] ((0, ⟨"ana", 7⟩) :: [])
        ⟨[⟨"1", "ana", 0, "P", none, 0⟩], [], []⟩ =
      assignLoop (4 / 5) ["ana"] ["ana"] []
        ⟨modifyIdx (applyMatch ⟨"ana", 7⟩ 1) 0 [⟨"1", "ana", 0, "P", none, 0⟩],
          0 :: [], 0 :: []⟩ ∧
    ∀ hi : 0 < ([⟨"1", "ana", 0, "P", none, 0⟩] : List CandRec).length,
      (modifyIdx (applyMatch ⟨"ana", 7⟩ 1) 0 [⟨"1", "ana", 0, "P", none, 0⟩]).get? 0 =
        some { ([⟨"1", "ana", 0, "P", none, 0⟩] : List CandRec).get ⟨0, hi⟩ with
          votes := (7 : ℚ), matched_from := some "ana", match_quality := round3 1 } :=
  (assign_step_selection (4 / 5) ["ana"] ["ana"] 0 ⟨"ana", 7⟩ []
      ⟨[⟨"1", "ana", 0, "P", none, 0⟩], [], []⟩).2.1 0 1
    (by
      norm_num [bestCandidate, bestCandidateAux, smRatio,
        (by decide : normalize "ana" = "ana"),
        (by decide : matchingSize "ana".data "ana".data = 3)])
    (by norm_num) (by simp)

/-- Witness for C9: a successful one-candidate, one-poll-entry run, fed back
in, reproduces itself. -/
theorem assign_votes_idempotent_witness :
    assign_votes_to_candidates [⟨"1", "ana", 5, "P", some "ana", 1⟩] [⟨"ana", 5⟩] (4 / 5) =
      .ok [⟨"1", "ana", 5, "P", some "ana", 1⟩] :=
  assign_votes_idempotent [⟨"1", "ana", 0, "P", none, 0⟩] [⟨"ana", 5⟩] (4 / 5)
    [⟨"1", "ana", 5, "P", some "ana", 1⟩]
    (by
      norm_num [assign_votes_to_candidates, assignLoop, bestCandidate, bestCandidateAux,
        smRatio, postPass, applyMatch, modifyIdx, round3, roundHalfEven, unmatchedReset,
        List.enum, List.enumFrom,
        (by decide : normalize "ana" = "ana"),
        (by decide : matchingSize "ana".data "ana".data = 3)])

end DipSvc
